import Mathlib

/-!
Shallow embedding of the Persona pipeline backend
(`backend/clustering.py`, `backend/business.py`, `backend/persona_gen.py`).

Machine-level caveats: Python floats are modelled as exact rationals, and the
JSON number grammar is restricted to integers (the inputs relevant here contain
only integer literals); a parse that would produce a float is modelled as a
failure, and universally quantified statements restrict values accordingly.
-/

namespace Persona

/-! ### clustering.py -/

/-- Python `int(q)` truncates toward zero. -/
def pyInt (q : ℚ) : ℤ := if q < 0 then ⌈q⌉ else ⌊q⌋

/-- `min_cluster_size = max(2, int(n * min_cluster_fraction))`
(clustering.py line 53). -/
def min_cluster_size (n : ℕ) (min_cluster_fraction : ℚ) : ℤ :=
  max 2 (pyInt ((n : ℚ) * min_cluster_fraction))

/-- The payload dict carried by a triple (free-form string fields). -/
abbrev Payload := List (String × String)

/-- A `(id, vector, payload)` triple as consumed by `cluster_embeddings`. -/
structure Triple where
  id : ℤ
  vector : List ℚ
  payload : Payload
deriving Repr, DecidableEq

/-- `clusters.setdefault(lbl, []).append(payload)` on an insertion-ordered
dict represented as an association list (clustering.py line 76). -/
def addToCluster : List (ℤ × List Payload) → ℤ → Payload → List (ℤ × List Payload)
  | [], lbl, p => [(lbl, [p])]
  | (l, ms) :: rest, lbl, p =>
    if l = lbl then (l, ms ++ [p]) :: rest
    else (l, ms) :: addToCluster rest lbl p

/-- The cluster-assembly loop of clustering.py lines 72-76: iterate
`zip(triples, labels)` in order, skip noise label `-1`, append payloads. -/
def cluster_assemble : List (Triple × ℤ) → List (ℤ × List Payload) → List (ℤ × List Payload)
  | [], acc => acc
  | (t, l) :: rest, acc =>
    if l = -1 then cluster_assemble rest acc
    else cluster_assemble rest (addToCluster acc l t.payload)

/-- `cluster_embeddings`, with the HDBSCAN call abstracted as a label oracle
`hdbscan : min_cluster_size → epsilon → vectors → labels`
(clustering.py lines 34-84). -/
def cluster_embeddings (hdbscan : ℤ → ℚ → List (List ℚ) → List ℤ)
    (triples : List Triple) (min_cluster_fraction : ℚ)
    (cluster_selection_epsilon : ℚ) : List (ℤ × List Payload) :=
  if triples.length = 0 then []
  else
    let mcs := min_cluster_size triples.length min_cluster_fraction
    let labels := hdbscan mcs cluster_selection_epsilon (triples.map (·.vector))
    cluster_assemble (triples.zip labels) []

/-! ### business.py: `_call_groq_with_retries` -/

/-- Outcome of the retry loop of business.py lines 22-40. -/
inductive CallResult where
  | success (attempt : ℕ)
  | httpError (status : ℕ)
  | rateLimited (detail : String)
deriving Repr, DecidableEq

/-- A run of the retry loop: terminal outcome plus the sequence of slept
delays (in seconds), in order. -/
structure RunTrace where
  result : CallResult
  delays : List ℚ
deriving Repr, DecidableEq

/-- The loop body of `_call_groq_with_retries`: `status i` is the HTTP status
the backend returns on attempt `i`, `jitter i` models `random.random()` on
attempt `i`. On 429 the delay `backoff * 2 ^ attempt + jitter attempt` is
recorded and the loop continues; on 200 it succeeds; anything else is
`raise_for_status`. -/
def retryLoop (status : ℕ → ℕ) (jitter : ℕ → ℚ) (backoff : ℚ)
    (max_retries : ℕ) : ℕ → ℕ → List ℚ → RunTrace
  | _, 0, acc =>
    ⟨.rateLimited ("Rate limit: exceeded " ++ toString max_retries ++ " retries"), acc⟩
  | attempt, remaining + 1, acc =>
    if status attempt = 200 then ⟨.success attempt, acc⟩
    else if status attempt = 429 then
      retryLoop status jitter backoff max_retries (attempt + 1) remaining
        (acc ++ [backoff * 2 ^ attempt + jitter attempt])
    else ⟨.httpError (status attempt), acc⟩

/-- `_call_groq_with_retries(payload, max_retries, backoff)`
(business.py lines 22-40), with the network abstracted by `status` and the
RNG by `jitter`. -/
def _call_groq_with_retries (status : ℕ → ℕ) (jitter : ℕ → ℚ)
    (max_retries : ℕ) (backoff : ℚ) : RunTrace :=
  retryLoop status jitter backoff max_retries 0 max_retries []

/-! ### persona_gen.py: character-level helpers -/

/-- ASCII part of Python `\s` (space, tab, newline, carriage return,
vertical tab, form feed). -/
def isPyWs (c : Char) : Bool :=
  c == ' ' || c == '\t' || c == '\n' || c == '\r' || c == '\x0b' || c == '\x0c'

/-- Python `str.strip()` on the character list. -/
def trimWs (l : List Char) : List Char :=
  ((l.dropWhile isPyWs).reverse.dropWhile isPyWs).reverse

/-- JSON whitespace as accepted by `json.loads`. -/
def isJsonWs (c : Char) : Bool :=
  c == ' ' || c == '\t' || c == '\n' || c == '\r'

def skipWs (l : List Char) : List Char := l.dropWhile isJsonWs

/-- Structured JSON values. Numbers are restricted to integers: inputs whose
parse would produce a float are modelled as parse failures. -/
inductive Json where
  | null
  | bool (b : Bool)
  | num (n : ℤ)
  | str (s : String)
  | arr (elts : List Json)
  | obj (kvs : List (String × Json))
deriving Repr

/-- JSON string escapes handled by the model (`\uXXXX` is not modelled). -/
def escChar : Char → Option Char
  | 'n' => some '\n'
  | 'r' => some '\r'
  | 't' => some '\t'
  | 'b' => some '\x08'
  | 'f' => some '\x0c'
  | '"' => some '"'
  | '/' => some '/'
  | '\\' => some '\\'
  | _ => none

/-- Parse the body of a JSON string (after the opening quote), returning the
decoded characters and the remainder after the closing quote. Unescaped
control characters are rejected, as in strict `json.loads`. -/
def parseStrChars : List Char → Option (List Char × List Char)
  | [] => none
  | c :: rest =>
    if c = '"' then some ([], rest)
    else if c = '\\' then
      match rest with
      | [] => none
      | e :: rest2 =>
        match escChar e with
        | some ec => (parseStrChars rest2).map (fun p => (ec :: p.1, p.2))
        | none => none
    else if c.toNat < 32 then none
    else (parseStrChars rest).map (fun p => (c :: p.1, p.2))

def digitsVal (ds : List Char) : ℕ := ds.foldl (fun n c => 10 * n + (c.toNat - 48)) 0

/-- Parse a non-negative integer literal per the JSON number grammar,
rejecting leading zeros and anything that would continue into a float. -/
def parseNumCore : List Char → Option (ℤ × List Char)
  | [] => none
  | c :: rest =>
    if c = '0' then
      if rest.head?.any (fun c1 => c1.isDigit || c1 == '.' || c1 == 'e' || c1 == 'E') then none
      else some (0, rest)
    else if c.isDigit then
      let ds := (c :: rest).takeWhile Char.isDigit
      let r := (c :: rest).dropWhile Char.isDigit
      if r.head?.any (fun c2 => c2 == '.' || c2 == 'e' || c2 == 'E') then none
      else some ((digitsVal ds : ℤ), r)
    else none

def parseNum : List Char → Option (ℤ × List Char)
  | [] => none
  | c :: rest =>
    if c = '-' then (parseNumCore rest).map (fun p => (-p.1, p.2))
    else parseNumCore (c :: rest)

/-- Parser modes: a value, an object body (just after `{` and whitespace),
one-or-more object members, an array body, one-or-more array elements. -/
inductive PMode where
  | val | objBody | objItem | arrBody | arrItem

/-- Fuel-indexed recursive-descent parser mirroring `json.loads` on the
integer fragment. Whitespace is skipped exactly where the Python decoder
skips it. -/
def parseCore : ℕ → PMode → List Char → Option (Json × List Char)
  | 0, _, _ => none
  | fuel + 1, .val, cs =>
    match cs with
    | [] => none
    | c :: rest =>
      if c = '"' then (parseStrChars rest).map (fun p => (.str (String.mk p.1), p.2))
      else if c = '{' then parseCore fuel .objBody (skipWs rest)
      else if c = '[' then parseCore fuel .arrBody (skipWs rest)
      else if c = 't' then
        if rest.take 3 = ['r', 'u', 'e'] then some (.bool true, rest.drop 3) else none
      else if c = 'f' then
        if rest.take 4 = ['a', 'l', 's', 'e'] then some (.bool false, rest.drop 4) else none
      else if c = 'n' then
        if rest.take 3 = ['u', 'l', 'l'] then some (.null, rest.drop 3) else none
      else if c = '-' ∨ c.isDigit then (parseNum (c :: rest)).map (fun p => (.num p.1, p.2))
      else none
  | fuel + 1, .objBody, cs =>
    match cs with
    | [] => none
    | c :: rest =>
      if c = '}' then some (.obj [], rest)
      else parseCore fuel .objItem (c :: rest)
  | fuel + 1, .objItem, cs =>
    match cs with
    | [] => none
    | c :: rest =>
      if c = '"' then
        match parseStrChars rest with
        | none => none
        | some (ks, u1) =>
          match skipWs u1 with
          | [] => none
          | d1 :: u2 =>
            if d1 = ':' then
              match parseCore fuel .val (skipWs u2) with
              | none => none
              | some (vj, u3) =>
                match skipWs u3 with
                | [] => none
                | d2 :: u4 =>
                  if d2 = ',' then
                    match parseCore fuel .objItem (skipWs u4) with
                    | some (.obj kvs, u5) => some (.obj ((String.mk ks, vj) :: kvs), u5)
                    | _ => none
                  else if d2 = '}' then some (.obj [(String.mk ks, vj)], u4)
                  else none
            else none
      else none
  | fuel + 1, .arrBody, cs =>
    match cs with
    | [] => none
    | c :: rest =>
      if c = ']' then some (.arr [], rest)
      else parseCore fuel .arrItem (c :: rest)
  | fuel + 1, .arrItem, cs =>
    match parseCore fuel .val cs with
    | none => none
    | some (vj, u1) =>
      match skipWs u1 with
      | [] => none
      | d1 :: u2 =>
        if d1 = ',' then
          match parseCore fuel .arrItem (skipWs u2) with
          | some (.arr vjs, u3) => some (.arr (vj :: vjs), u3)
          | _ => none
        else if d1 = ']' then some (.arr [vj], u2)
        else none

/-- `json.loads` on a character list: leading/trailing whitespace allowed,
the entire input must be consumed. -/
def json_loads_chars (cs : List Char) : Option Json :=
  match parseCore (2 * cs.length + 2) .val (skipWs cs) with
  | some (v, rest) => if skipWs rest = [] then some v else none
  | none => none

/-! ### persona_gen.py: `_extract_json` -/

def backquote : Char := Char.ofNat 96

/-- The fenced-block marker. -/
def fence : List Char := [backquote, backquote, backquote]

/-- Python `str.split` with the three-character fence as separator
(leftmost, non-overlapping). `rsplit` with no maxsplit produces the same
list, so both uses in the source are covered. -/
def splitFence : ℕ → List Char → List Char → List (List Char)
  | 0, acc, l => [acc.reverse ++ l]
  | f + 1, acc, l =>
    if l.take 3 = fence then acc.reverse :: splitFence f [] (l.drop 3)
    else
      match l with
      | [] => [acc.reverse]
      | c :: cs => splitFence f (c :: acc) cs

def pySplitFence (l : List Char) : List (List Char) := splitFence (l.length + 1) [] l

/-- Fence removal of persona_gen.py lines 38-41:
`text.split("```")[1]` when the text starts with a fence,
then `text.rsplit("```")[0]` when the result ends with a fence. -/
def stripFences (t : List Char) : List Char :=
  let t1 := if t.take 3 = fence then (pySplitFence t).getD 1 [] else t
  if t1.drop (t1.length - 3) = fence then (pySplitFence t1).getD 0 [] else t1

/-- `text.find("{")`, returned as the suffix starting at the first `{`. -/
def findBrace : List Char → Option (List Char)
  | [] => none
  | c :: cs => if c = '{' then some (c :: cs) else findBrace cs

/-- The brace-depth loop of persona_gen.py lines 47-53: starting from the
first `{`, increment on `{`, decrement on `}`; when depth returns to zero
return the candidate span (accumulated in reverse), else run off the end. -/
def takeBalanced : List Char → ℤ → List Char → Option (List Char)
  | _, _, [] => none
  | acc, depth, c :: cs =>
    if c = '{' then takeBalanced (c :: acc) (depth + 1) cs
    else if c = '}' then
      if depth - 1 = 0 then some (c :: acc).reverse
      else takeBalanced (c :: acc) (depth - 1) cs
    else takeBalanced (c :: acc) depth cs

/-- Depth contribution of one character in the brace scan. -/
def braceDelta (c : Char) : ℤ := if c = '{' then 1 else if c = '}' then -1 else 0

/-- Net brace depth of a character span (the value of the scanner's depth
counter after reading it, starting from 0). -/
def braceDepth (cs : List Char) : ℤ := (cs.map braceDelta).sum

/-- `\w` (ASCII fragment). -/
def isWordChar (c : Char) : Bool := c.isAlphanum || c == '_'

/-- One attempt of the repair regex `("\w+"\s*:\s*)(\d+-\d+)` at the head of
the input; on success returns (group 1, group 2, remainder). -/
def matchRange (l : List Char) : Option (List Char × List Char × List Char) :=
  match l with
  | [] => none
  | c0 :: r1 =>
    if c0 = '"' then
      let w := r1.takeWhile isWordChar
      if w.isEmpty then none
      else
        match r1.dropWhile isWordChar with
        | [] => none
        | c1 :: r2 =>
          if c1 = '"' then
            let ws1 := r2.takeWhile isPyWs
            match r2.dropWhile isPyWs with
            | [] => none
            | c2 :: r3 =>
              if c2 = ':' then
                let ws2 := r3.takeWhile isPyWs
                let r4 := r3.dropWhile isPyWs
                let d1 := r4.takeWhile Char.isDigit
                if d1.isEmpty then none
                else
                  match r4.dropWhile Char.isDigit with
                  | [] => none
                  | c3 :: r5 =>
                    if c3 = '-' then
                      let d2 := r5.takeWhile Char.isDigit
                      if d2.isEmpty then none
                      else some ('"' :: w ++ '"' :: ws1 ++ ':' :: ws2,
                                 d1 ++ '-' :: d2,
                                 r5.dropWhile Char.isDigit)
                    else none
              else none
          else none
    else none

/-- `re.sub` scan for the range-repair pattern: leftmost non-overlapping
matches, each replaced by `\1"\2"`. -/
def repairGo : ℕ → List Char → List Char
  | 0, l => l
  | _, [] => []
  | f + 1, c :: cs =>
    match matchRange (c :: cs) with
    | some (g1, g2, rest) => g1 ++ '"' :: (g2 ++ '"' :: repairGo f rest)
    | none => c :: repairGo f cs

/-- persona_gen.py line 59: quote bare numeric-range values. -/
def repairRanges (l : List Char) : List Char := repairGo (l.length + 1) l

/-- The three terminal failures of `_extract_json`. -/
inductive ExtractErr where
  | noJson
  | unmatched
  | parseFail
deriving Repr, DecidableEq

/-- `str(e)` for the exceptions raised by `_extract_json` (the decoder
error's position details are not modelled). -/
def extractErrMsg : ExtractErr → String
  | .noJson => "No JSON object found in LLM output"
  | .unmatched => "Unmatched braces in LLM output"
  | .parseFail => "JSONDecodeError"

/-- `_extract_json` of persona_gen.py lines 32-61. -/
def extractJsonChars (cs : List Char) : Except ExtractErr Json :=
  let text := stripFences (trimWs cs)
  match findBrace text with
  | none => .error .noJson
  | some suffix =>
    match takeBalanced [] 0 suffix with
    | none => .error .unmatched
    | some objStr =>
      match json_loads_chars objStr with
      | some j => .ok j
      | none =>
        match json_loads_chars (repairRanges objStr) with
        | some j => .ok j
        | none => .error .parseFail

def _extract_json (raw : String) : Except ExtractErr Json := extractJsonChars raw.data

/-! ### persona_gen.py: `generate_personas` -/

def ppKey : List Char := '"' :: ("pain_points".data ++ ['"'])

/-- One attempt of the normalization regex
`("pain_points"\s*:\s*)\{\s*([^}]+?)\s*\}` (DOTALL) at the head of the
input; on success returns the replacement `\1[\2.strip()]` and the
remainder. Since `[^}]` cannot cross a `}`, the lazy group together with
the surrounding `\s*` captures exactly the text between `{` and the first
`}`, stripped; the braces must enclose at least one character. -/
def matchPP (l : List Char) : Option (List Char × List Char) :=
  if l.take ppKey.length = ppKey then
    let r1 := l.drop ppKey.length
    let ws1 := r1.takeWhile isPyWs
    match r1.dropWhile isPyWs with
    | [] => none
    | c1 :: r2 =>
      if c1 = ':' then
        let ws2 := r2.takeWhile isPyWs
        match r2.dropWhile isPyWs with
        | [] => none
        | c2 :: r3 =>
          if c2 = '{' then
            let inner := r3.takeWhile (fun c => !(c == '}'))
            match r3.dropWhile (fun c => !(c == '}')) with
            | [] => none
            | _ :: r4 =>
              if inner.isEmpty then none
              else some (ppKey ++ ws1 ++ ':' :: ws2 ++ '[' :: (trimWs inner ++ [']']), r4)
          else none
      else none
  else none

def ppGo : ℕ → List Char → List Char
  | 0, l => l
  | _, [] => []
  | f + 1, c :: cs =>
    match matchPP (c :: cs) with
    | some (rep, rest) => rep ++ ppGo f rest
    | none => c :: ppGo f cs

/-- persona_gen.py lines 111-116: rewrite set-like `pain_points` values to
JSON arrays before extraction. -/
def normalizePainPoints (l : List Char) : List Char := ppGo (l.length + 1) l

def pyStrip (s : String) : String := String.mk (trimWs s.data)

/-- `payload.get(key, "")` on the association-list payload (later duplicate
keys overwrite earlier ones, as in a dict). -/
def dictGetStr (p : Payload) (k : String) : String :=
  p.foldl (fun r kv => if kv.1 = k then kv.2 else r) ""

/-- `[p.get("text", "") for p in members if p.get("text")]`
(persona_gen.py line 96). -/
def clusterTexts (members : List Payload) : List String :=
  (members.map (fun p => dictGetStr p "text")).filter (fun t => t ≠ "")

/-- `", ".join(generated_names) if generated_names else "none"`. -/
def prev_list (names : List String) : String :=
  if names.isEmpty then "none" else String.intercalate ", " names

/-- The instruction (system) message of persona_gen.py lines 82-93. -/
def system_msg (label : ℤ) (names : List String) : String :=
  "You are an expert market researcher. Create exactly one JSON persona for cluster "
    ++ toString label
    ++ ". Previously generated persona names: "
    ++ prev_list names
    ++ ". Ensure this persona is distinct in persona_name, demographics, goals, and pain_points from all previous ones. Include ONLY these keys: persona_name (string), demographics (object), goals (object), pain_points (array of strings), channels (object), content_preferences (object), marketing_strategy (object). All keys and values must be double-quoted. Numeric ranges (e.g. \"28-35\") must be strings. Do NOT include comments, markdown, or trailing commas. Use JSON arrays for lists."

/-- The content (human) message of persona_gen.py lines 97-103. -/
def human_msg (label : ℤ) (members : List Payload) : String :=
  "Here are the comments for cluster " ++ toString label
    ++ ". Derive a unique persona JSON object:\n\n"
    ++ String.intercalate "\n" (clusterTexts members)

/-- Dict lookup on parsed object members (last occurrence wins, matching the
overwrite semantics of a Python dict literal). -/
def jGet (kvs : List (String × Json)) (k : String) : Option Json :=
  kvs.foldl (fun r kv => if kv.1 = k then some kv.2 else r) none

/-- `persona.get("persona_name", "").strip()`; calling `.strip()` on a
non-string raises AttributeError, and `.get` on a non-dict fails too. -/
def personaName (persona : Json) : Except String String :=
  match persona with
  | .obj kvs =>
    match jGet kvs "persona_name" with
    | none => .ok ""
    | some (.str s) => .ok (pyStrip s)
    | some _ => .error "AttributeError"
  | _ => .error "AttributeError"

/-- `HTTPException(status_code=500, detail=f"Cluster {label}: {e}")`. -/
structure PersonaError where
  label : ℤ
  detail : String
deriving Repr, DecidableEq

/-- A run of `generate_personas`: the generation requests issued (label,
system message, human message), in order, and the terminal outcome. -/
structure SynthResult where
  requests : List (ℤ × String × String)
  result : Except PersonaError (List Json)
deriving Repr

/-- The body of the `try` block of persona_gen.py lines 106-124 for one
cluster: invoke (the oracle), normalize set-like `pain_points`, extract,
and compute the tracked name; a failure carries `str(e)`. -/
def clusterOutcome (resp : ℤ → String) (label : ℤ) : Except String (Json × String) :=
  match extractJsonChars (normalizePainPoints (resp label).data) with
  | .error e => .error (extractErrMsg e)
  | .ok persona =>
    match personaName persona with
    | .error m => .error m
    | .ok name => .ok (persona, name)

/-- The per-cluster loop of persona_gen.py lines 74-132, with `llm.invoke`
abstracted as a response oracle keyed by cluster label. Accumulators:
personas produced so far, `generated_names`, requests issued so far. -/
def genGo (resp : ℤ → String) :
    List (ℤ × List Payload) → List Json → List String →
    List (ℤ × String × String) → SynthResult
  | [], personas, _, reqs => ⟨reqs, .ok personas⟩
  | (label, members) :: rest, personas, names, reqs =>
    if label = -1 then genGo resp rest personas names reqs
    else
      let reqs' := reqs ++ [(label, system_msg label names, human_msg label members)]
      match clusterOutcome resp label with
      | .error m => ⟨reqs', .error ⟨label, "Cluster " ++ toString label ++ ": " ++ m⟩⟩
      | .ok (persona, name) =>
        genGo resp rest (personas ++ [persona])
          (if name = "" then names else names ++ [name]) reqs'

/-- `generate_personas(clusters)` of persona_gen.py lines 64-134. -/
def generate_personas (resp : ℤ → String) (clusters : List (ℤ × List Payload)) : SynthResult :=
  genGo resp clusters [] [] []

/-- The fixed Persona field set of the spec (the key list the system prompt
names). -/
def personaFields : List String :=
  ["persona_name", "demographics", "goals", "pain_points", "channels",
   "content_preferences", "marketing_strategy"]

/-- The input family of the extractor-repair claim: an object whose single
key maps to a bare numeric-range token, `{"k": a-b}`. -/
def bareRangeObject (k a b : List Char) : List Char :=
  ['{', '"'] ++ k ++ ['"', ':', ' '] ++ a ++ ['-'] ++ b ++ ['}']

/-- The same object with the range token quoted, `{"k": "a-b"}`. -/
def quotedRangeObject (k a b : List Char) : List Char :=
  ['{', '"'] ++ k ++ ['"', ':', ' ', '"'] ++ a ++ ['-'] ++ b ++ ['"', '}']

/-- Characters that pass through the string parser unchanged: not a quote,
not a backslash, not a control character. -/
def strSafe (c : Char) : Prop := c ≠ '"' ∧ c ≠ '\\' ∧ ¬c.toNat < 32

/-- A well-formed value of an ordinary member in the repair claim's object
family: a string of word characters, or an integer literal. -/
inductive SafeVal where
  | str (s : List Char)
  | num (ds : List Char)
deriving Repr, DecidableEq

/-- One member of the object family: an ordinary key/value pair, or a key
whose value is a bare digits-hyphen-digits range token. -/
inductive RMember where
  | safe (k : List Char) (v : SafeVal)
  | range (k a b : List Char)
deriving Repr, DecidableEq

def renderVal : SafeVal → List Char
  | .str s => '"' :: (s ++ ['"'])
  | .num ds => ds

/-- The member as it appears in the raw (pre-repair) object text:
`"key": value`, with a range member's token left bare. -/
def renderMember : RMember → List Char
  | .safe k v => '"' :: (k ++ '"' :: ':' :: ' ' :: renderVal v)
  | .range k a b => '"' :: (k ++ '"' :: ':' :: ' ' :: (a ++ '-' :: b))

/-- The member after the repair pass: range tokens quoted, ordinary members
untouched. -/
def renderMemberQ : RMember → List Char
  | .safe k v => '"' :: (k ++ '"' :: ':' :: ' ' :: renderVal v)
  | .range k a b => '"' :: (k ++ '"' :: ':' :: ' ' :: '"' :: (a ++ '-' :: (b ++ ['"'])))

/-- Comma-space-separated member list, as in the object texts the claim
quantifies over. -/
def joinMembers (f : RMember → List Char) : List RMember → List Char
  | [] => []
  | [m] => f m
  | m :: rest => f m ++ ',' :: ' ' :: joinMembers f rest

/-- The raw object text `{m1, m2, ...}`. -/
def renderObject (ms : List RMember) : List Char :=
  '{' :: (joinMembers renderMember ms ++ ['}'])

/-- The structured record each member denotes once ranges are read as
strings. -/
def memberKV : RMember → String × Json
  | .safe k (.str s) => (String.mk k, .str (String.mk s))
  | .safe k (.num ds) => (String.mk k, .num (digitsVal ds))
  | .range k a b => (String.mk k, .str (String.mk (a ++ '-' :: b)))

/-- Keys are nonempty and made of word characters; string values are word
characters; integer values are canonical digit strings (either `0` or with
no leading zero); range components are nonempty digit strings. -/
def wfVal : SafeVal → Bool
  | .str s => s.all isWordChar
  | .num ds => ds.all Char.isDigit && !ds.isEmpty &&
      (ds == ['0'] || !(ds.head?.any (fun c => c == '0')))

def wfMember : RMember → Bool
  | .safe k v => k.all isWordChar && !k.isEmpty && wfVal v
  | .range k a b => k.all isWordChar && !k.isEmpty &&
      a.all Char.isDigit && !a.isEmpty && b.all Char.isDigit && !b.isEmpty

def isRange : RMember → Bool
  | .safe _ _ => false
  | .range _ _ _ => true

/-! ## Theorems -/

/-- C4: for every batch size `n ≥ 1` and every fraction `f`, the minimum
cluster size handed to HDBSCAN equals `max 2 ⌊n * f⌋` (truncation toward
zero agrees with the floor once clamped to at least 2). -/
theorem C4_min_cluster_size_formula (n : ℕ) (f : ℚ) (_h : 1 ≤ n) :
    min_cluster_size n f = max 2 ⌊(n : ℚ) * f⌋ := by
  unfold min_cluster_size pyInt
  by_cases hq : (n : ℚ) * f < 0
  · have h1 : ⌈(n : ℚ) * f⌉ ≤ 0 := Int.ceil_le.mpr (by exact_mod_cast hq.le)
    have h2 : ⌊(n : ℚ) * f⌋ ≤ 0 := Int.floor_nonpos hq.le
    rw [if_pos hq]
    omega
  · rw [if_neg hq]

/-- Witness for C4 at `n = 10`, `f = 1/20`. -/
theorem C4_min_cluster_size_formula_witness :
    1 ≤ 10 ∧ min_cluster_size 10 (1 / 20) = max 2 ⌊(10 : ℚ) * (1 / 20)⌋ :=
  ⟨by norm_num, C4_min_cluster_size_formula 10 (1 / 20) (by norm_num)⟩

lemma retryLoop_all429 (status : ℕ → ℕ) (jitter : ℕ → ℚ) (backoff : ℚ) (max_retries : ℕ) :
    ∀ (remaining attempt : ℕ) (acc : List ℚ),
      (∀ i, i < remaining → status (attempt + i) = 429) →
      retryLoop status jitter backoff max_retries attempt remaining acc =
        ⟨.rateLimited ("Rate limit: exceeded " ++ toString max_retries ++ " retries"),
         acc ++ (List.range remaining).map
           (fun i => backoff * 2 ^ (attempt + i) + jitter (attempt + i))⟩ := by
  intro remaining
  induction remaining with
  | zero => intro attempt acc _; simp [retryLoop]
  | succ r ih =>
    intro attempt acc h
    have h0 : status attempt = 429 := by simpa using h 0 (Nat.succ_pos r)
    have harg : ∀ i, i < r → status (attempt + 1 + i) = 429 := by
      intro i hi
      have := h (i + 1) (by omega)
      simpa [Nat.add_assoc, Nat.add_comm 1 i] using this
    have hfun : (fun i => backoff * 2 ^ (attempt + 1 + i) + jitter (attempt + 1 + i))
        = (fun i => backoff * 2 ^ (attempt + Nat.succ i) + jitter (attempt + Nat.succ i)) := by
      funext i
      have hi : attempt + 1 + i = attempt + Nat.succ i := by omega
      rw [hi]
    simp only [retryLoop, h0]
    norm_num
    rw [ih (attempt + 1) _ harg]
    congr 1
    rw [List.range_succ_eq_map]
    simp [List.map_map, Function.comp_def, hfun]

/-- C2: when the backend rate-limits on every attempt, the invoker makes
exactly `max_retries` attempts, fails with a rate-limit error naming the
retry count, and the delay slept after attempt `i` is
`backoff * 2 ^ i + jitter i` with `jitter i ∈ [0, 1)`; with `backoff = 1`
the delays are non-decreasing and bounded by `backoff * 2 ^ (max_retries - 1) + 1`. -/
theorem C2_retry_policy (status : ℕ → ℕ) (jitter : ℕ → ℚ) (max_retries : ℕ) (backoff : ℚ)
    (hs : ∀ i, i < max_retries → status i = 429)
    (hj : ∀ i, 0 ≤ jitter i ∧ jitter i < 1) :
    (_call_groq_with_retries status jitter max_retries backoff).result
        = .rateLimited ("Rate limit: exceeded " ++ toString max_retries ++ " retries") ∧
    (_call_groq_with_retries status jitter max_retries backoff).delays
        = (List.range max_retries).map (fun i => backoff * 2 ^ i + jitter i) ∧
    (_call_groq_with_retries status jitter max_retries backoff).delays.length = max_retries ∧
    (backoff = 1 →
      (_call_groq_with_retries status jitter max_retries backoff).delays.Chain' (· ≤ ·)) ∧
    (backoff = 1 →
      ∀ d ∈ (_call_groq_with_retries status jitter max_retries backoff).delays,
        d ≤ backoff * 2 ^ (max_retries - 1) + 1) := by
  have key := retryLoop_all429 status jitter backoff max_retries max_retries 0 []
    (fun i hi => by simpa using hs i hi)
  have htr : _call_groq_with_retries status jitter max_retries backoff =
      ⟨.rateLimited ("Rate limit: exceeded " ++ toString max_retries ++ " retries"),
       (List.range max_retries).map (fun i => backoff * 2 ^ i + jitter i)⟩ := by
    unfold _call_groq_with_retries
    rw [key]
    simp
  rw [htr]
  have hmono : ∀ i j : ℕ, i < j →
      (1 : ℚ) * 2 ^ i + jitter i ≤ 1 * 2 ^ j + jitter j := by
    intro i j hij
    have h2i : (1 : ℚ) ≤ 2 ^ i := by
      calc (1 : ℚ) = 2 ^ (0 : ℕ) := by norm_num
      _ ≤ 2 ^ i := pow_le_pow_right₀ one_le_two (Nat.zero_le i)
    have hstep : (2 : ℚ) ^ i + 2 ^ i ≤ 2 ^ j := by
      have h1 : (2 : ℚ) ^ i + 2 ^ i = 2 ^ (i + 1) := by ring
      rw [h1]
      exact pow_le_pow_right₀ one_le_two hij
    have hji := (hj i).2
    have hjj := (hj j).1
    simp only [one_mul]
    linarith
  refine ⟨rfl, rfl, by simp, ?_, ?_⟩
  · intro hb
    subst hb
    apply List.Pairwise.chain'
    rw [List.pairwise_map]
    exact (List.pairwise_lt_range _).imp (fun h => hmono _ _ h)
  · intro hb d hd
    subst hb
    obtain ⟨i, hi, rfl⟩ := List.mem_map.mp hd
    have hi' : i < max_retries := List.mem_range.mp hi
    have hpo : (2 : ℚ) ^ i ≤ 2 ^ (max_retries - 1) :=
      pow_le_pow_right₀ one_le_two (by omega)
    have := (hj i).2
    simp only [one_mul]
    linarith

/-- Witness for C2 with five all-429 attempts and jitter 1/2. -/
theorem C2_retry_policy_witness :
    (_call_groq_with_retries (fun _ => 429) (fun _ => 1 / 2) 5 1).delays.length = 5 ∧
    (_call_groq_with_retries (fun _ => 429) (fun _ => 1 / 2) 5 1).result
      = .rateLimited ("Rate limit: exceeded " ++ toString 5 ++ " retries") := by
  have h := C2_retry_policy (fun _ => 429) (fun _ => 1 / 2) 5 1
    (fun _ _ => rfl) (fun _ => by norm_num)
  exact ⟨h.2.2.1, h.1⟩

lemma addToCluster_inv (P : ℤ → Payload → Prop) (lbl : ℤ) (q : Payload)
    (hl : lbl ≠ -1) (hq : P lbl q) :
    ∀ acc, (∀ l ms, (l, ms) ∈ acc → l ≠ -1 ∧ ∀ p ∈ ms, P l p) →
      ∀ l ms, (l, ms) ∈ addToCluster acc lbl q → l ≠ -1 ∧ ∀ p ∈ ms, P l p := by
  intro acc
  induction acc with
  | nil =>
    intro _ l ms hmem
    simp only [addToCluster, List.mem_singleton, Prod.mk.injEq] at hmem
    obtain ⟨rfl, rfl⟩ := hmem
    refine ⟨hl, ?_⟩
    intro p hp
    rw [List.mem_singleton.mp hp]
    exact hq
  | cons hd tl ih =>
    intro hacc l ms hmem
    obtain ⟨l0, ms0⟩ := hd
    by_cases h0 : l0 = lbl
    · simp only [addToCluster, if_pos h0] at hmem
      rcases List.mem_cons.mp hmem with heq | htl
      · have h1 : l = l0 := congrArg Prod.fst heq
        have h2 : ms = ms0 ++ [q] := congrArg Prod.snd heq
        subst h1
        subst h2
        have hhd := hacc l ms0 (List.mem_cons_self _ _)
        refine ⟨hhd.1, ?_⟩
        intro p hp
        rcases List.mem_append.mp hp with hp0 | hp1
        · exact hhd.2 p hp0
        · rw [List.mem_singleton.mp hp1, h0]
          exact hq
      · exact hacc l ms (List.mem_cons_of_mem _ htl)
    · simp only [addToCluster, if_neg h0] at hmem
      rcases List.mem_cons.mp hmem with heq | htl
      · have h1 : l = l0 := congrArg Prod.fst heq
        have h2 : ms = ms0 := congrArg Prod.snd heq
        subst h1
        subst h2
        exact hacc l ms (List.mem_cons_self _ _)
      · exact ih (fun l' ms' hm => hacc l' ms' (List.mem_cons_of_mem _ hm)) l ms htl

lemma cluster_assemble_inv (P : ℤ → Payload → Prop) :
    ∀ (pairs : List (Triple × ℤ)) (acc : List (ℤ × List Payload)),
      (∀ l ms, (l, ms) ∈ acc → l ≠ -1 ∧ ∀ p ∈ ms, P l p) →
      (∀ tl ∈ pairs, tl.2 ≠ -1 → P tl.2 tl.1.payload) →
      ∀ l ms, (l, ms) ∈ cluster_assemble pairs acc → l ≠ -1 ∧ ∀ p ∈ ms, P l p := by
  intro pairs
  induction pairs with
  | nil =>
    intro acc hacc _ l ms hm
    exact hacc l ms (by simpa [cluster_assemble] using hm)
  | cons hd tl ih =>
    intro acc hacc hp l ms hm
    obtain ⟨t, lb⟩ := hd
    by_cases hlb : lb = -1
    · rw [cluster_assemble, if_pos hlb] at hm
      exact ih acc hacc (fun x hx h => hp x (List.mem_cons_of_mem _ hx) h) l ms hm
    · rw [cluster_assemble, if_neg hlb] at hm
      refine ih (addToCluster acc lb t.payload)
        (addToCluster_inv P lb t.payload hlb (hp (t, lb) (List.mem_cons_self _ _) hlb) acc hacc)
        (fun x hx h => hp x (List.mem_cons_of_mem _ hx) h) l ms hm

lemma genGo_skip_noise (resp : ℤ → String) :
    ∀ (clusters : List (ℤ × List Payload)) (personas : List Json)
      (names : List String) (reqs : List (ℤ × String × String)),
      genGo resp (clusters.filter (fun c => c.1 != -1)) personas names reqs
        = genGo resp clusters personas names reqs := by
  intro clusters
  induction clusters with
  | nil => intro personas names reqs; rfl
  | cons c rest ih =>
    intro personas names reqs
    obtain ⟨label, members⟩ := c
    by_cases hl : label = -1
    · subst hl
      have hfc : List.filter (fun c => c.1 != -1) (((-1 : ℤ), members) :: rest)
          = List.filter (fun c => c.1 != -1) rest := by
        simp [List.filter_cons]
      rw [hfc, ih, genGo, if_pos rfl]
    · have hfc : List.filter (fun c => c.1 != -1) ((label, members) :: rest)
          = (label, members) :: List.filter (fun c => c.1 != -1) rest := by
        simp [List.filter_cons, hl]
      rw [hfc, genGo, genGo, if_neg hl, if_neg hl]
      cases hco : clusterOutcome resp label with
      | error m => rfl
      | ok pn =>
        obtain ⟨p0, nm⟩ := pn
        exact ih ..

/-- C3: the reserved noise label `-1` never appears as a key of the
clustering output; every payload in a cluster's member list comes from a
triple whose HDBSCAN label equals that (non-noise) key; and the persona
generator ignores `-1` entries entirely, so noise payloads never reach the
persona list. -/
theorem C3_noise_never_surfaces (hdbscan : ℤ → ℚ → List (List ℚ) → List ℤ)
    (triples : List Triple) (mcf ε : ℚ) :
    (∀ ms, ((-1 : ℤ), ms) ∉ cluster_embeddings hdbscan triples mcf ε) ∧
    (∀ l ms, (l, ms) ∈ cluster_embeddings hdbscan triples mcf ε →
      ∀ p ∈ ms, ∃ pair ∈ triples.zip
          (hdbscan (min_cluster_size triples.length mcf) ε (triples.map (·.vector))),
        pair.2 = l ∧ pair.2 ≠ -1 ∧ pair.1.payload = p) ∧
    (∀ (resp : ℤ → String) (clusters : List (ℤ × List Payload)),
      generate_personas resp (clusters.filter (fun c => c.1 != -1))
        = generate_personas resp clusters) := by
  refine ⟨?_, ?_, ?_⟩
  · intro ms hmem
    unfold cluster_embeddings at hmem
    by_cases h0 : triples.length = 0
    · simp [h0] at hmem
    · rw [if_neg h0] at hmem
      exact (cluster_assemble_inv (fun _ _ => True) _ [] (by simp) (by simp)
        (-1) ms hmem).1 rfl
  · intro l ms hmem p hp
    unfold cluster_embeddings at hmem
    by_cases h0 : triples.length = 0
    · simp [h0] at hmem
    · rw [if_neg h0] at hmem
      exact (cluster_assemble_inv
        (fun l' p' => ∃ pair ∈ triples.zip
            (hdbscan (min_cluster_size triples.length mcf) ε (triples.map (·.vector))),
          pair.2 = l' ∧ pair.2 ≠ -1 ∧ pair.1.payload = p')
        _ [] (by simp) (fun x hx h => ⟨x, hx, rfl, h, rfl⟩) l ms hmem).2 p hp
  · intro resp clusters
    unfold generate_personas
    exact genGo_skip_noise resp clusters [] [] []

/-- Witness for C3: one triple labeled 5 by the oracle lands in cluster 5. -/
theorem C3_noise_never_surfaces_witness :
    ∃ pair ∈ ([⟨0, [0], [("text", "hi")]⟩] : List Triple).zip
        ((fun (_ : ℤ) (_ : ℚ) (_ : List (List ℚ)) => [(5 : ℤ)])
          (min_cluster_size ([⟨0, [0], [("text", "hi")]⟩] : List Triple).length (1 / 20))
          0 (([⟨0, [0], [("text", "hi")]⟩] : List Triple).map (·.vector))),
      pair.2 = 5 ∧ pair.2 ≠ -1 ∧ pair.1.payload = [("text", "hi")] := by
  have h := (C3_noise_never_surfaces (fun _ _ _ => [5])
    [⟨0, [0], [("text", "hi")]⟩] (1 / 20) 0).2.1
  refine h 5 [[("text", "hi")]] ?_ [("text", "hi")] (by simp)
  simp [cluster_embeddings, cluster_assemble, addToCluster]

lemma str_data_append (s t : String) : (s ++ t).data = s.data ++ t.data := rfl

lemma str_append_assoc (a b c : String) : (a ++ b) ++ c = a ++ (b ++ c) := by
  apply String.ext
  rw [str_data_append, str_data_append, str_data_append, str_data_append,
    List.append_assoc]

lemma intercalate_singleton (sep x : String) : String.intercalate sep [x] = x := by
  simp [String.intercalate, String.intercalate.go]

lemma genGo_requests_accumulate (resp : ℤ → String) :
    ∀ (clusters : List (ℤ × List Payload)) (personas : List Json)
      (names : List String) (reqs : List (ℤ × String × String)),
      ∃ t, (genGo resp clusters personas names reqs).requests = reqs ++ t := by
  intro clusters
  induction clusters with
  | nil => intro personas names reqs; exact ⟨[], by simp [genGo]⟩
  | cons c rest ih =>
    intro personas names reqs
    obtain ⟨label, members⟩ := c
    by_cases hl : label = -1
    · rw [genGo, if_pos hl]
      exact ih ..
    · rw [genGo, if_neg hl]
      cases hco : clusterOutcome resp label with
      | error m => exact ⟨[(label, system_msg label names, human_msg label members)], rfl⟩
      | ok pn =>
        obtain ⟨p0, nm⟩ := pn
        obtain ⟨t, ht⟩ := ih (personas ++ [p0]) (if nm = "" then names else names ++ [nm])
          (reqs ++ [(label, system_msg label names, human_msg label members)])
        exact ⟨(label, system_msg label names, human_msg label members) :: t, by
          rw [ht]; simp⟩

lemma genGo_pre_ok (resp : ℤ → String) :
    ∀ (pre : List (ℤ × List Payload)) (personas : List Json)
      (names : List String) (reqs : List (ℤ × String × String)),
      (∀ c ∈ pre, c.1 ≠ -1 → ∃ v, clusterOutcome resp c.1 = .ok v) →
      ∀ tail, ∃ personas' names' reqs',
        genGo resp (pre ++ tail) personas names reqs
          = genGo resp tail personas' names' reqs' := by
  intro pre
  induction pre with
  | nil => intro personas names reqs _ tail; exact ⟨personas, names, reqs, rfl⟩
  | cons c rest ih =>
    intro personas names reqs h tail
    obtain ⟨label, members⟩ := c
    by_cases hl : label = -1
    · rw [List.cons_append, genGo, if_pos hl]
      exact ih personas names reqs (fun x hx hne => h x (List.mem_cons_of_mem _ hx) hne) tail
    · obtain ⟨v, hv⟩ := h (label, members) (List.mem_cons_self _ _) hl
      obtain ⟨p0, nm⟩ := v
      rw [List.cons_append, genGo, if_neg hl]
      simp only [hv]
      exact ih _ _ _ (fun x hx hne => h x (List.mem_cons_of_mem _ hx) hne) tail

/-- C6: if the invoke/extract/name step fails for some cluster (all earlier
non-noise clusters having succeeded), the whole batch fails with an error
that names that cluster's label, and no persona list is returned: the
personas synthesized for earlier clusters are discarded. -/
theorem C6_failure_aborts_batch (resp : ℤ → String) (pre : List (ℤ × List Payload))
    (label : ℤ) (members : List Payload) (post : List (ℤ × List Payload)) (m : String)
    (hpre : ∀ c ∈ pre, c.1 ≠ -1 → ∃ v, clusterOutcome resp c.1 = .ok v)
    (hl : label ≠ -1)
    (hfail : clusterOutcome resp label = .error m) :
    (generate_personas resp (pre ++ (label, members) :: post)).result
      = .error ⟨label, "Cluster " ++ toString label ++ ": " ++ m⟩ := by
  unfold generate_personas
  obtain ⟨personas', names', reqs', heq⟩ := genGo_pre_ok resp pre [] [] [] hpre
    ((label, members) :: post)
  rw [heq, genGo, if_neg hl]
  simp only [hfail]

/-- Witness for C6: cluster 0 succeeds, cluster 1 yields unextractable text. -/
theorem C6_failure_aborts_batch_witness :
    (generate_personas (fun l => if l = 0 then "\x7b\"persona_name\": \"A\"\x7d" else "oops")
        ([(0, [])] ++ ((1 : ℤ), ([] : List Payload)) :: [])).result
      = .error ⟨1, "Cluster " ++ toString (1 : ℤ) ++ ": " ++ "No JSON object found in LLM output"⟩ := by
  refine C6_failure_aborts_batch _ [(0, [])] 1 [] [] "No JSON object found in LLM output"
    ?_ (by decide) rfl
  intro c hc _
  rw [List.mem_singleton.mp hc]
  exact ⟨(.obj [("persona_name", .str "A")], "A"), rfl⟩

/-- C1 (counterexample): an extracted object whose key set is disjoint from
the fixed persona field set is appended to the output list and the batch
succeeds; no ValidationError-style failure occurs. -/
theorem C1_missing_keys_not_rejected :
    (generate_personas (fun _ => "\x7b\"foo\": 1\x7d") [(0, [[("text", "hello")]])]).result
      = .ok [.obj [("foo", .num 1)]] ∧
    "foo" ∉ personaFields ∧ "persona_name" ∈ personaFields :=
  ⟨rfl, by decide, by decide⟩

/-- C1 (amended): the synthesizer performs no key validation: whatever
object extraction produces is appended to the output list, with no
constraint relating its keys to the fixed persona field set. -/
theorem C1_extracted_object_always_appended (resp : ℤ → String) (label : ℤ)
    (members : List Payload) (rest : List (ℤ × List Payload)) (personas : List Json)
    (names : List String) (reqs : List (ℤ × String × String)) (p : Json) (nm : String)
    (hl : label ≠ -1)
    (hok : clusterOutcome resp label = .ok (p, nm)) :
    genGo resp ((label, members) :: rest) personas names reqs
      = genGo resp rest (personas ++ [p]) (if nm = "" then names else names ++ [nm])
          (reqs ++ [(label, system_msg label names, human_msg label members)]) := by
  rw [genGo, if_neg hl]
  simp only [hok]

/-- Witness for the amended C1 at a concrete wrong-keys response. -/
theorem C1_extracted_object_always_appended_witness :
    genGo (fun _ => "\x7b\"foo\": 1\x7d") [((0 : ℤ), ([[("text", "hello")]] : List Payload))] [] [] []
      = genGo (fun _ => "\x7b\"foo\": 1\x7d") [] [.obj [("foo", .num 1)]]
          (if "" = "" then [] else [] ++ [""])
          ([] ++ [(0, system_msg 0 [], human_msg 0 [[("text", "hello")]])]) :=
  C1_extracted_object_always_appended (fun _ => "\x7b\"foo\": 1\x7d") 0 [[("text", "hello")]]
    [] [] [] [] (.obj [("foo", .num 1)]) "" (by decide) rfl

/-- C10: when the extracted object has no `persona_name` key, or its value
strips to the empty string, the record is still appended but the running
`generated_names` list is left unchanged, so that cluster contributes no
uniqueness constraint to later instruction messages. -/
theorem C10_empty_name_not_tracked (resp : ℤ → String) (label : ℤ)
    (members : List Payload) (rest : List (ℤ × List Payload)) (personas : List Json)
    (names : List String) (reqs : List (ℤ × String × String)) (kvs : List (String × Json))
    (hl : label ≠ -1)
    (hex : extractJsonChars (normalizePainPoints (resp label).data) = .ok (.obj kvs))
    (hname : jGet kvs "persona_name" = none ∨
      ∃ s, jGet kvs "persona_name" = some (.str s) ∧ pyStrip s = "") :
    genGo resp ((label, members) :: rest) personas names reqs
      = genGo resp rest (personas ++ [.obj kvs]) names
          (reqs ++ [(label, system_msg label names, human_msg label members)]) := by
  have hpn : personaName (.obj kvs) = .ok "" := by
    rcases hname with h | ⟨s, hs, hstrip⟩
    · simp [personaName, h]
    · simp [personaName, hs, hstrip]
  have hco : clusterOutcome resp label = .ok (.obj kvs, "") := by
    simp [clusterOutcome, hex, hpn]
  rw [genGo, if_neg hl]
  simp [hco]

/-- Witness for C10 at an object with a whitespace-only persona name. -/
theorem C10_empty_name_not_tracked_witness :
    genGo (fun _ => "\x7b\"persona_name\": \"  \"\x7d") [((0 : ℤ), ([] : List Payload))]
        [] ["Earlier"] []
      = genGo (fun _ => "\x7b\"persona_name\": \"  \"\x7d") []
          [.obj [("persona_name", .str "  ")]] ["Earlier"]
          ([] ++ [(0, system_msg 0 ["Earlier"], human_msg 0 [])]) :=
  C10_empty_name_not_tracked (fun _ => "\x7b\"persona_name\": \"  \"\x7d") 0 [] [] []
    ["Earlier"] [] [("persona_name", .str "  ")] (by decide) rfl
    (Or.inr ⟨"  ", rfl, rfl⟩)

/-- C5: when the first cluster's persona is produced successfully, the
instruction (system) message built for the second cluster literally contains
the tracked persona name of the first cluster as a substring. -/
theorem C5_uniqueness_message (resp : ℤ → String) (l1 : ℤ) (m1 : List Payload)
    (l2 : ℤ) (m2 : List Payload) (rest : List (ℤ × List Payload)) (p : Json) (nm : String)
    (h1 : l1 ≠ -1) (h2 : l2 ≠ -1)
    (hok : clusterOutcome resp l1 = .ok (p, nm)) :
    ∃ tl, (generate_personas resp ((l1, m1) :: (l2, m2) :: rest)).requests
        = (l1, system_msg l1 [], human_msg l1 m1)
          :: (l2, system_msg l2 (if nm = "" then [] else [nm]), human_msg l2 m2) :: tl ∧
      nm.data <:+: (system_msg l2 (if nm = "" then [] else [nm])).data := by
  have hreq : ∃ tl, (generate_personas resp ((l1, m1) :: (l2, m2) :: rest)).requests
      = (l1, system_msg l1 [], human_msg l1 m1)
        :: (l2, system_msg l2 (if nm = "" then [] else [nm]), human_msg l2 m2) :: tl := by
    unfold generate_personas
    rw [genGo, if_neg h1]
    simp only [hok]
    rw [genGo, if_neg h2]
    cases hco2 : clusterOutcome resp l2 with
    | error m => exact ⟨[], by simp⟩
    | ok pn2 =>
      obtain ⟨p2, nm2⟩ := pn2
      obtain ⟨t, ht⟩ := genGo_requests_accumulate resp rest
        (([] ++ [p]) ++ [p2])
        (if nm2 = "" then (if nm = "" then [] else [] ++ [nm])
         else (if nm = "" then [] else [] ++ [nm]) ++ [nm2])
        ((([] : List (ℤ × String × String))
            ++ [(l1, system_msg l1 [], human_msg l1 m1)])
          ++ [(l2, system_msg l2 (if nm = "" then [] else [] ++ [nm]), human_msg l2 m2)])
      exact ⟨t, by rw [ht]; simp⟩
  obtain ⟨tl, htl⟩ := hreq
  refine ⟨tl, htl, ?_⟩
  by_cases hnm : nm = ""
  · subst hnm
    exact ⟨[], (system_msg l2 (if "" = "" then [] else [""])).data, by simp⟩
  · rw [if_neg hnm]
    have hpl : prev_list [nm] = nm := by
      simp [prev_list, intercalate_singleton]
    have hsys : system_msg l2 [nm]
        = ("You are an expert market researcher. Create exactly one JSON persona for cluster "
            ++ toString l2 ++ ". Previously generated persona names: ")
          ++ nm
          ++ ". Ensure this persona is distinct in persona_name, demographics, goals, and pain_points from all previous ones. Include ONLY these keys: persona_name (string), demographics (object), goals (object), pain_points (array of strings), channels (object), content_preferences (object), marketing_strategy (object). All keys and values must be double-quoted. Numeric ranges (e.g. \"28-35\") must be strings. Do NOT include comments, markdown, or trailing commas. Use JSON arrays for lists." := by
      rw [system_msg, hpl]
    rw [hsys]
    exact ⟨_, _, by rw [str_data_append, str_data_append]⟩

/-- Witness for C5: the name "Ann" produced for cluster 0 appears in the
system message of cluster 1. -/
theorem C5_uniqueness_message_witness :
    ∃ tl, (generate_personas (fun l => if l = 0 then "\x7b\"persona_name\": \"Ann\"\x7d" else "\x7b\x7d")
        [((0 : ℤ), ([] : List Payload)), (1, [])]).requests
        = (0, system_msg 0 [], human_msg 0 [])
          :: (1, system_msg 1 (if "Ann" = "" then [] else ["Ann"]), human_msg 1 []) :: tl ∧
      "Ann".data <:+: (system_msg 1 (if "Ann" = "" then [] else ["Ann"])).data :=
  C5_uniqueness_message _ 0 [] 1 [] [] (.obj [("persona_name", .str "Ann")]) "Ann"
    (by decide) (by decide) rfl

/-- C7: the extractor strips the fence markers of
`"```json\n\x7b\"a\": 1\x7d\n```"`, locates the balanced brace span, and returns
exactly the object `{"a": 1}`. -/
theorem C7_extractor_round_trip :
    _extract_json "```json\n\x7b\"a\": 1\x7d\n```" = .ok (.obj [("a", .num 1)]) := rfl

lemma findBrace_none : ∀ l : List Char, '{' ∉ l → findBrace l = none := by
  intro l
  induction l with
  | nil => intro _; rfl
  | cons c cs ih =>
    intro h
    rw [findBrace, if_neg (fun hc => h (by simp [hc]))]
    exact ih (fun hm => h (List.mem_cons_of_mem _ hm))

lemma braceDepth_nil : braceDepth [] = 0 := rfl

lemma braceDepth_cons (c : Char) (t : List Char) :
    braceDepth (c :: t) = braceDelta c + braceDepth t := by
  simp [braceDepth]

lemma braceDelta_open : braceDelta '{' = 1 := rfl

lemma braceDelta_close : braceDelta '}' = -1 := rfl

lemma braceDelta_other (c : Char) (h1 : ¬c = '{') (h2 : ¬c = '}') : braceDelta c = 0 := by
  simp [braceDelta, h1, h2]

lemma takeBalanced_none_of_no_return :
    ∀ (l acc : List Char) (d : ℤ),
      (∀ n : ℕ, l[n]? = some '}' → d + braceDepth (l.take (n + 1)) ≠ 0) →
      takeBalanced acc d l = none := by
  intro l
  induction l with
  | nil => intro acc d _; rfl
  | cons c cs ih =>
    intro acc d h
    have hstep : ∀ n : ℕ, cs[n]? = some '}' →
        d + braceDelta c + braceDepth (cs.take (n + 1)) ≠ 0 := by
      intro n hn hEq
      apply h (n + 1) (by simpa using hn)
      rw [List.take_succ_cons, braceDepth_cons]
      linarith
    by_cases hc : c = '{'
    · rw [takeBalanced, if_pos hc]
      apply ih
      intro n hn
      have hs := hstep n hn
      rw [hc, braceDelta_open] at hs
      intro hEq
      exact hs (by linarith)
    · by_cases hc2 : c = '}'
      · have h1 : ¬(d - 1 = 0) := by
          intro hq
          apply h 0 (by simp [hc2])
          rw [List.take_succ_cons, List.take_zero, braceDepth_cons, braceDepth_nil, hc2,
            braceDelta_close]
          linarith
        rw [takeBalanced, if_neg hc, if_pos hc2, if_neg h1]
        apply ih
        intro n hn
        have hs := hstep n hn
        rw [hc2, braceDelta_close] at hs
        intro hEq
        exact hs (by linarith)
      · rw [takeBalanced, if_neg hc, if_neg hc2]
        apply ih
        intro n hn
        have hs := hstep n hn
        rw [braceDelta_other c hc hc2] at hs
        intro hEq
        exact hs (by linarith)

/-- C9: after trimming and fence stripping, the extractor fails with the
no-JSON error whenever the text contains no `{`, and with the
unmatched-braces error whenever the depth counter started at the first `{`
never returns to zero at any `}`. -/
theorem C9_extractor_failures (raw : String) :
    ('{' ∉ stripFences (trimWs raw.data) → _extract_json raw = .error .noJson) ∧
    (∀ suffix, findBrace (stripFences (trimWs raw.data)) = some suffix →
      (∀ n : ℕ, suffix[n]? = some '}' → braceDepth (suffix.take (n + 1)) ≠ 0) →
      _extract_json raw = .error .unmatched) := by
  constructor
  · intro h
    show extractJsonChars raw.data = .error .noJson
    simp only [extractJsonChars, findBrace_none _ h]
  · intro suffix hfb hnz
    show extractJsonChars raw.data = .error .unmatched
    simp only [extractJsonChars, hfb, takeBalanced_none_of_no_return suffix [] 0
      (fun n hn => by simpa using hnz n hn)]

/-- Witness for C9: a brace-free input and an unclosed-brace input. -/
theorem C9_extractor_failures_witness :
    _extract_json "abc" = .error .noJson ∧ _extract_json "\x7bx" = .error .unmatched := by
  constructor
  · exact (C9_extractor_failures "abc").1 (by decide)
  · refine (C9_extractor_failures "\x7bx").2 "\x7bx".data rfl ?_
    intro n hn
    have hm : '}' ∈ "\x7bx".data := List.getElem?_mem hn
    exact absurd hm (by decide)

lemma ne_of_wordChar {c : Char} (h : isWordChar c = true) {d : Char}
    (hd : isWordChar d = false) : c ≠ d := by
  intro heq
  rw [heq, hd] at h
  exact Bool.noConfusion h

lemma wordChar_of_digit {c : Char} (h : c.isDigit = true) : isWordChar c = true := by
  simp [isWordChar, Char.isAlphanum, h]

lemma jsonWs_false_of_wordChar {c : Char} (h : isWordChar c = true) : isJsonWs c = false := by
  cases hw : isJsonWs c with
  | false => rfl
  | true =>
    exfalso
    simp only [isJsonWs, Bool.or_eq_true, beq_iff_eq] at hw
    rcases hw with ((rfl | rfl) | rfl) | rfl <;> exact Bool.noConfusion h

lemma pyWs_false_of_wordChar {c : Char} (h : isWordChar c = true) : isPyWs c = false := by
  cases hw : isPyWs c with
  | false => rfl
  | true =>
    exfalso
    simp only [isPyWs, Bool.or_eq_true, beq_iff_eq] at hw
    rcases hw with ((((rfl | rfl) | rfl) | rfl) | rfl) | rfl <;> exact Bool.noConfusion h

lemma wordChar_not_ctrl {c : Char} (h : isWordChar c = true) : ¬c.toNat < 32 := by
  simp only [isWordChar, Char.isAlphanum, Char.isAlpha, Char.isUpper, Char.isLower,
    Char.isDigit, Bool.or_eq_true, Bool.and_eq_true, decide_eq_true_eq, beq_iff_eq] at h
  rcases h with (((⟨h1, _⟩ | ⟨h1, _⟩) | ⟨h1, _⟩) | rfl)
  · have h2 : (65 : ℕ) ≤ c.val.toNat := UInt32.le_toNat_of_le (by norm_num) h1
    show ¬c.val.toNat < 32
    omega
  · have h2 : (97 : ℕ) ≤ c.val.toNat := UInt32.le_toNat_of_le (by norm_num) h1
    show ¬c.val.toNat < 32
    omega
  · have h2 : (48 : ℕ) ≤ c.val.toNat := UInt32.le_toNat_of_le (by norm_num) h1
    show ¬c.val.toNat < 32
    omega
  · decide

lemma strSafe_of_wordChar {c : Char} (h : isWordChar c = true) : strSafe c :=
  ⟨ne_of_wordChar h (by decide), ne_of_wordChar h (by decide), wordChar_not_ctrl h⟩

lemma parseStr_plain : ∀ (s r : List Char), (∀ c ∈ s, strSafe c) →
    parseStrChars (s ++ '"' :: r) = some (s, r) := by
  intro s
  induction s with
  | nil =>
    intro r _
    rw [List.nil_append, parseStrChars.eq_def]
    simp
  | cons c cs ih =>
    intro r hs
    obtain ⟨hq, hbs, hctrl⟩ := hs c (List.mem_cons_self _ _)
    rw [List.cons_append, parseStrChars.eq_def]
    simp [hq, hbs, hctrl, ih r (fun x hx => hs x (List.mem_cons_of_mem _ hx))]

lemma scan_adjoin (p : Char → Bool) :
    ∀ (l r : List Char), (∀ c ∈ l, p c = true) → (∀ c ∈ r.head?, p c = false) →
      (l ++ r).takeWhile p = l ∧ (l ++ r).dropWhile p = r := by
  intro l
  induction l with
  | nil =>
    intro r _ hr
    cases r with
    | nil => exact ⟨rfl, rfl⟩
    | cons c cs =>
      have hc : p c = false := hr c rfl
      constructor
      · simp [List.takeWhile_cons, hc]
      · simp [List.dropWhile_cons, hc]
  | cons c cs ih =>
    intro r hl hr
    have hc := hl c (List.mem_cons_self _ _)
    obtain ⟨ht, hd⟩ := ih r (fun x hx => hl x (List.mem_cons_of_mem _ hx)) hr
    constructor
    · simp [List.takeWhile_cons, hc, ht]
    · simp [List.dropWhile_cons, hc, hd]

lemma trimWs_brace_wrapped (m : List Char) :
    trimWs ('{' :: (m ++ ['}'])) = '{' :: (m ++ ['}']) := by
  have h1 : List.dropWhile isPyWs ('{' :: (m ++ ['}'])) = '{' :: (m ++ ['}']) := by
    simp [List.dropWhile_cons, show isPyWs '{' = false from rfl]
  have h2 : ('{' :: (m ++ ['}'])).reverse = '}' :: (m.reverse ++ ['{']) := by simp
  have h3 : List.dropWhile isPyWs ('}' :: (m.reverse ++ ['{'])) = '}' :: (m.reverse ++ ['{']) := by
    simp [List.dropWhile_cons, show isPyWs '}' = false from rfl]
  rw [trimWs, h1, h2, h3, ← h2, List.reverse_reverse]

lemma drop_ne_fence_of_getLast (l : List Char) (h : l.getLast? = some '}') (n : ℕ) :
    l.drop n ≠ fence := by
  intro hd
  have hsplit : l.take n ++ l.drop n = l := List.take_append_drop n l
  rw [hd] at hsplit
  have hlast : l.getLast? = some backquote := by
    rw [← hsplit, List.getLast?_append]
    rfl
  rw [h] at hlast
  have : ('}' : Char) = backquote := Option.some.inj hlast.symm |>.symm
  exact absurd this (by decide)

lemma stripFences_brace_wrapped (m : List Char) :
    stripFences ('{' :: (m ++ ['}'])) = '{' :: (m ++ ['}']) := by
  have h1 : ¬('{' :: (m ++ ['}'])).take 3 = fence := by
    intro h
    have hh := congrArg List.head? h
    rw [List.take_succ_cons] at hh
    simp only [List.head?_cons] at hh
    have : ('{' : Char) = backquote := by
      have : some '{' = fence.head? := hh
      simpa [fence] using this
    exact absurd this (by decide)
  have h2 : ('{' :: (m ++ ['}'])).getLast? = some '}' := by
    rw [show '{' :: (m ++ ['}']) = ('{' :: m) ++ ['}'] from by simp, List.getLast?_concat]
  rw [stripFences]
  simp only [h1, if_false, ite_false]
  rw [if_neg (drop_ne_fence_of_getLast _ h2 _)]

lemma findBrace_cons_open (rest : List Char) : findBrace ('{' :: rest) = some ('{' :: rest) := by
  rw [findBrace, if_pos rfl]

lemma takeBalanced_flat : ∀ (m acc : List Char), (∀ c ∈ m, ¬c = '{' ∧ ¬c = '}') →
    takeBalanced acc 1 (m ++ ['}']) = some (acc.reverse ++ (m ++ ['}'])) := by
  intro m
  induction m with
  | nil =>
    intro acc _
    rw [List.nil_append, takeBalanced]
    rw [if_neg (by decide : ¬('}' : Char) = '{'), if_pos rfl,
      if_pos (by norm_num : (1 : ℤ) - 1 = 0)]
    simp
  | cons c m' ih =>
    intro acc hm
    obtain ⟨hc1, hc2⟩ := hm c (List.mem_cons_self _ _)
    rw [List.cons_append, takeBalanced, if_neg hc1, if_neg hc2,
      ih (c :: acc) (fun x hx => hm x (List.mem_cons_of_mem _ hx))]
    simp

lemma takeBalanced_wrapped (m : List Char) (hm : ∀ c ∈ m, ¬c = '{' ∧ ¬c = '}') :
    takeBalanced [] 0 ('{' :: (m ++ ['}'])) = some ('{' :: (m ++ ['}'])) := by
  rw [takeBalanced, if_pos rfl, show (0 : ℤ) + 1 = 1 from by norm_num,
    takeBalanced_flat m ['{'] hm]
  rfl

lemma repairGo_nil : ∀ f, repairGo f [] = [] := by
  intro f
  cases f <;> rfl

lemma matchRange_miss (c : Char) (rest : List Char) (hc : ¬c = '"') :
    matchRange (c :: rest) = none := by
  rw [matchRange.eq_def]
  simp [hc]

lemma matchRange_hit (k a b r : List Char)
    (hk : k ≠ []) (hkw : ∀ c ∈ k, isWordChar c = true)
    (ha : a ≠ []) (had : ∀ c ∈ a, c.isDigit = true)
    (hb : b ≠ []) (hbd : ∀ c ∈ b, c.isDigit = true)
    (hrd : ∀ c ∈ r.head?, c.isDigit = false) :
    matchRange ('"' :: (k ++ '"' :: ':' :: ' ' :: (a ++ '-' :: (b ++ r))))
      = some ('"' :: (k ++ ['"', ':', ' ']), a ++ '-' :: b, r) := by
  obtain ⟨a0, a', rfl⟩ : ∃ x xs, a = x :: xs := by
    cases a with
    | nil => exact absurd rfl ha
    | cons x xs => exact ⟨x, xs, rfl⟩
  have ha0 : isPyWs a0 = false :=
    pyWs_false_of_wordChar (wordChar_of_digit (had a0 (List.mem_cons_self _ _)))
  have hK := scan_adjoin isWordChar k ('"' :: ':' :: ' ' :: ((a0 :: a') ++ '-' :: (b ++ r)))
    hkw (fun x hx => by simp at hx; subst hx; decide)
  have hA := scan_adjoin Char.isDigit (a0 :: a') ('-' :: (b ++ r)) had
    (fun x hx => by simp at hx; subst hx; decide)
  have hB := scan_adjoin Char.isDigit b r hbd hrd
  rw [matchRange.eq_def]
  simp only [List.cons_append] at hK hA hB
  simp [hK.1, hK.2, hA.1, hA.2, hB.1, hB.2, hk, hb, ha0,
    List.takeWhile_cons, List.dropWhile_cons,
    show isPyWs ':' = false from rfl, show isPyWs ' ' = true from rfl,
    show Char.isDigit a0 = true from had a0 (List.mem_cons_self _ _)]

lemma repair_bareRange (k a b : List Char)
    (hk : k ≠ []) (hkw : ∀ c ∈ k, isWordChar c = true)
    (ha : a ≠ []) (had : ∀ c ∈ a, c.isDigit = true)
    (hb : b ≠ []) (hbd : ∀ c ∈ b, c.isDigit = true) :
    repairRanges (bareRangeObject k a b) = quotedRangeObject k a b := by
  have hform : bareRangeObject k a b
      = '{' :: '"' :: (k ++ '"' :: ':' :: ' ' :: (a ++ '-' :: (b ++ ['}']))) := by
    simp [bareRangeObject]
  obtain ⟨g, hg⟩ : ∃ g, (bareRangeObject k a b).length + 1 = g + 3 := by
    refine ⟨(bareRangeObject k a b).length - 2, ?_⟩
    have : 2 ≤ (bareRangeObject k a b).length := by
      rw [hform]
      simp
    omega
  rw [repairRanges, hg, hform]
  have s1 : repairGo (g + 3) ('{' :: '"' :: (k ++ '"' :: ':' :: ' ' :: (a ++ '-' :: (b ++ ['}']))))
      = '{' :: repairGo (g + 2) ('"' :: (k ++ '"' :: ':' :: ' ' :: (a ++ '-' :: (b ++ ['}'])))) := by
    rw [repairGo]
    simp [matchRange_miss '{' _ (by decide)]
  have s3 : repairGo (g + 1) ['}'] = ['}'] := by
    rw [repairGo]
    simp [matchRange_miss '}' _ (by decide), repairGo_nil]
  have s2 : repairGo (g + 2) ('"' :: (k ++ '"' :: ':' :: ' ' :: (a ++ '-' :: (b ++ ['}']))))
      = ('"' :: (k ++ ['"', ':', ' '])) ++ '"' :: ((a ++ '-' :: b) ++ '"' :: repairGo (g + 1) ['}']) := by
    rw [repairGo]
    simp [matchRange_hit k a b ['}'] hk hkw ha had hb hbd
      (fun x hx => by simp at hx; subst hx; decide)]
  rw [s1, s2, s3]
  simp [quotedRangeObject]

lemma ne_of_digit {c : Char} (h : c.isDigit = true) {d : Char}
    (hd : d.isDigit = false) : c ≠ d := by
  intro heq
  rw [heq, hd] at h
  exact Bool.noConfusion h

lemma json_loads_quotedRange (k a b : List Char)
    (hkw : ∀ c ∈ k, isWordChar c = true)
    (had : ∀ c ∈ a, c.isDigit = true)
    (hbd : ∀ c ∈ b, c.isDigit = true) :
    json_loads_chars (quotedRangeObject k a b)
      = some (.obj [(String.mk k, .str (String.mk (a ++ '-' :: b)))]) := by
  have hform : quotedRangeObject k a b
      = '{' :: '"' :: (k ++ '"' :: ':' :: ' ' :: '"' :: (a ++ '-' :: (b ++ ['"', '}']))) := by
    simp [quotedRangeObject]
  have hVsafe : ∀ c ∈ a ++ '-' :: b, strSafe c := by
    intro c hc
    rcases List.mem_append.mp hc with hca | hcb
    · exact strSafe_of_wordChar (wordChar_of_digit (had c hca))
    · rcases List.mem_cons.mp hcb with rfl | hcb'
      · exact ⟨by decide, by decide, by decide⟩
      · exact strSafe_of_wordChar (wordChar_of_digit (hbd c hcb'))
  have hKs := parseStr_plain k (':' :: ' ' :: '"' :: (a ++ '-' :: (b ++ ['"', '}'])))
    (fun c hc => strSafe_of_wordChar (hkw c hc))
  have hV := parseStr_plain (a ++ '-' :: b) ['}'] hVsafe
  simp only [List.cons_append, List.append_assoc, List.nil_append] at hV
  obtain ⟨f, hf⟩ : ∃ f, 2 * (quotedRangeObject k a b).length + 2 = f + 5 := by
    refine ⟨2 * (quotedRangeObject k a b).length - 3, ?_⟩
    have : 2 ≤ (quotedRangeObject k a b).length := by
      rw [hform]
      simp
    omega
  rw [json_loads_chars, hf, hform]
  simp [parseCore, skipWs, List.dropWhile_cons, hKs, hV,
    show isJsonWs '{' = false from rfl, show isJsonWs '"' = false from rfl,
    show isJsonWs ':' = false from rfl, show isJsonWs ' ' = true from rfl,
    show isJsonWs '}' = false from rfl]

lemma json_loads_bareRange (k a b : List Char)
    (hkw : ∀ c ∈ k, isWordChar c = true)
    (ha : a ≠ []) (had : ∀ c ∈ a, c.isDigit = true)
    (_hbd : ∀ c ∈ b, c.isDigit = true) :
    json_loads_chars (bareRangeObject k a b) = none := by
  obtain ⟨a0, a', rfl⟩ : ∃ x xs, a = x :: xs := by
    cases a with
    | nil => exact absurd rfl ha
    | cons x xs => exact ⟨x, xs, rfl⟩
  have ha0 : a0.isDigit = true := had a0 (List.mem_cons_self _ _)
  have hform : bareRangeObject (k) (a0 :: a') b
      = '{' :: '"' :: (k ++ '"' :: ':' :: ' ' :: a0 :: (a' ++ '-' :: (b ++ ['}']))) := by
    simp [bareRangeObject]
  have hKs := parseStr_plain k (':' :: ' ' :: a0 :: (a' ++ '-' :: (b ++ ['}'])))
    (fun c hc => strSafe_of_wordChar (hkw c hc))
  have hA' := scan_adjoin Char.isDigit a' ('-' :: (b ++ ['}']))
    (fun c hc => had c (List.mem_cons_of_mem _ hc))
    (fun x hx => by simp at hx; subst hx; decide)
  have hne : ∀ d : Char, d.isDigit = false → ¬a0 = d := fun d hd => ne_of_digit ha0 hd
  obtain ⟨f, hf⟩ : ∃ f, 2 * (bareRangeObject k (a0 :: a') b).length + 2 = f + 5 := by
    refine ⟨2 * (bareRangeObject k (a0 :: a') b).length - 3, ?_⟩
    have : 2 ≤ (bareRangeObject k (a0 :: a') b).length := by
      rw [hform]
      simp
    omega
  rw [json_loads_chars, hf, hform]
  by_cases h0 : a0 = '0'
  · subst h0
    cases a' with
    | nil =>
      simp only [List.nil_append, List.cons_append] at hKs hA'
      simp [parseCore, skipWs, List.dropWhile_cons, hKs, parseNum, parseNumCore,
        show isJsonWs '{' = false from rfl, show isJsonWs '"' = false from rfl,
        show isJsonWs ':' = false from rfl, show isJsonWs ' ' = true from rfl,
        show isJsonWs '0' = false from rfl, show isJsonWs '-' = false from rfl,
        show Char.isDigit '-' = false from rfl,
        show (('-' : Char) == '.') = false from rfl,
        show (('-' : Char) == 'e') = false from rfl,
        show (('-' : Char) == 'E') = false from rfl]
    | cons a1 a'' =>
      have ha1 : a1.isDigit = true := had a1 (List.mem_cons_of_mem _ (List.mem_cons_self _ _))
      simp only [List.nil_append, List.cons_append] at hKs hA'
      simp [parseCore, skipWs, List.dropWhile_cons, hKs, parseNum, parseNumCore, ha1,
        show isJsonWs '{' = false from rfl, show isJsonWs '"' = false from rfl,
        show isJsonWs ':' = false from rfl, show isJsonWs ' ' = true from rfl,
        show isJsonWs '0' = false from rfl]
  · have hj0 : isJsonWs a0 = false :=
      jsonWs_false_of_wordChar (wordChar_of_digit ha0)
    simp [parseCore, skipWs, List.dropWhile_cons, hKs, parseNum, parseNumCore,
      ha0, hj0, h0, hne '"' (by decide), hne '{' (by decide), hne '[' (by decide),
      hne 't' (by decide), hne 'f' (by decide), hne 'n' (by decide), hne '-' (by decide),
      List.takeWhile_cons, hA'.1, hA'.2,
      show isJsonWs '{' = false from rfl, show isJsonWs '"' = false from rfl,
      show isJsonWs ':' = false from rfl, show isJsonWs ' ' = true from rfl,
      show isJsonWs '-' = false from rfl,
      show Char.isDigit '-' = false from rfl,
      show (('-' : Char) == '.') = false from rfl,
      show (('-' : Char) == 'e') = false from rfl,
      show (('-' : Char) == 'E') = false from rfl]

lemma extract_bareRange (k a b : List Char)
    (hk : k ≠ []) (hkw : ∀ c ∈ k, isWordChar c = true)
    (ha : a ≠ []) (had : ∀ c ∈ a, c.isDigit = true)
    (hb : b ≠ []) (hbd : ∀ c ∈ b, c.isDigit = true) :
    _extract_json (String.mk (bareRangeObject k a b))
      = .ok (.obj [(String.mk k, .str (String.mk (a ++ '-' :: b)))]) := by
  have hform : bareRangeObject k a b
      = '{' :: (('"' :: (k ++ '"' :: ':' :: ' ' :: (a ++ '-' :: b))) ++ ['}']) := by
    simp [bareRangeObject]
  have hmid : ∀ c ∈ ('"' :: (k ++ '"' :: ':' :: ' ' :: (a ++ '-' :: b))),
      ¬c = '{' ∧ ¬c = '}' := by
    intro c hc
    simp only [List.mem_cons, List.mem_append] at hc
    rcases hc with rfl | hck | rfl | rfl | rfl | hca | rfl | hcb
    · exact ⟨by decide, by decide⟩
    · exact ⟨ne_of_wordChar (hkw c hck) (by decide), ne_of_wordChar (hkw c hck) (by decide)⟩
    · exact ⟨by decide, by decide⟩
    · exact ⟨by decide, by decide⟩
    · exact ⟨by decide, by decide⟩
    · exact ⟨ne_of_digit (had c hca) (by decide), ne_of_digit (had c hca) (by decide)⟩
    · exact ⟨by decide, by decide⟩
    · exact ⟨ne_of_digit (hbd c hcb) (by decide), ne_of_digit (hbd c hcb) (by decide)⟩
  have htrim : trimWs (bareRangeObject k a b) = bareRangeObject k a b := by
    rw [hform]
    exact trimWs_brace_wrapped _
  have hstrip : stripFences (bareRangeObject k a b) = bareRangeObject k a b := by
    rw [hform]
    exact stripFences_brace_wrapped _
  have hfind : findBrace (bareRangeObject k a b) = some (bareRangeObject k a b) := by
    rw [hform]
    exact findBrace_cons_open _
  have hbal : takeBalanced [] 0 (bareRangeObject k a b) = some (bareRangeObject k a b) := by
    rw [hform]
    exact takeBalanced_wrapped _ hmid
  show extractJsonChars (bareRangeObject k a b) = _
  simp only [extractJsonChars, htrim, hstrip, hfind, hbal,
    json_loads_bareRange k a b hkw ha had hbd,
    repair_bareRange k a b hk hkw ha had hb hbd,
    json_loads_quotedRange k a b hkw had hbd]

lemma length_dropWhile_le (p : Char → Bool) : ∀ l : List Char, (l.dropWhile p).length ≤ l.length := by
  intro l
  induction l with
  | nil => simp
  | cons c cs ih =>
    by_cases h : p c = true
    · rw [List.dropWhile_cons, if_pos h]
      exact Nat.le_trans ih (Nat.le_succ _)
    · rw [List.dropWhile_cons, if_neg (by simpa using h)]

lemma matchRange_shrinks : ∀ (l g1 g2 rest : List Char),
    matchRange l = some (g1, g2, rest) → rest.length < l.length := by
  intro l g1 g2 rest h
  cases l with
  | nil => rw [matchRange.eq_def] at h; exact Option.noConfusion h
  | cons c0 r1 =>
    rw [matchRange.eq_def] at h
    simp only at h
    split at h
    · split at h
      · exact Option.noConfusion h
      · split at h
        · exact Option.noConfusion h
        · rename_i c1 r2 heq1
          split at h
          · split at h
            · exact Option.noConfusion h
            · rename_i c2 r3 heq2
              split at h
              · split at h
                · exact Option.noConfusion h
                · split at h
                  · exact Option.noConfusion h
                  · rename_i c3 r5 heq3
                    split at h
                    · split at h
                      · exact Option.noConfusion h
                      · have e1 : r2.length + 1 ≤ r1.length := by
                          have e0 := congrArg List.length heq1
                          have h4 := length_dropWhile_le isWordChar r1
                          simp at e0
                          omega
                        have e2 : r3.length + 1 ≤ r2.length := by
                          have e0 := congrArg List.length heq2
                          have h4 := length_dropWhile_le isPyWs r2
                          simp at e0
                          omega
                        have e3 : r5.length + 1 ≤ (r3.dropWhile isPyWs).length := by
                          have e0 := congrArg List.length heq3
                          have h4 := length_dropWhile_le Char.isDigit (r3.dropWhile isPyWs)
                          simp at e0
                          omega
                        have e4 : (r3.dropWhile isPyWs).length ≤ r3.length :=
                          length_dropWhile_le isPyWs r3
                        have e5 : (List.dropWhile Char.isDigit r5).length ≤ r5.length :=
                          length_dropWhile_le Char.isDigit r5
                        have h6 := Option.some.inj h
                        have e6 : rest = List.dropWhile Char.isDigit r5 := by
                          have h7 := congrArg
                            (fun p : List Char × List Char × List Char => p.2.2) h6
                          simpa using h7.symm
                        rw [e6]
                        simp only [List.length_cons]
                        omega
                    · exact Option.noConfusion h
              · exact Option.noConfusion h
          · exact Option.noConfusion h
    · exact Option.noConfusion h

lemma repairGo_congr : ∀ (n : ℕ) (l : List Char) (f1 f2 : ℕ),
    l.length ≤ n → l.length ≤ f1 → l.length ≤ f2 → repairGo f1 l = repairGo f2 l := by
  intro n
  induction n with
  | zero =>
    intro l f1 f2 hn _ _
    have : l = [] := by
      cases l with
      | nil => rfl
      | cons c cs => simp at hn
    subst this
    rw [repairGo_nil, repairGo_nil]
  | succ n ih =>
    intro l f1 f2 hn h1 h2
    cases l with
    | nil => rw [repairGo_nil, repairGo_nil]
    | cons c cs =>
      obtain ⟨g1, hg1⟩ : ∃ g, f1 = g + 1 := by
        cases f1 with
        | zero => simp at h1
        | succ g => exact ⟨g, rfl⟩
      obtain ⟨g2, hg2⟩ : ∃ g, f2 = g + 1 := by
        cases f2 with
        | zero => simp at h2
        | succ g => exact ⟨g, rfl⟩
      subst hg1
      subst hg2
      cases hm : matchRange (c :: cs) with
      | none =>
        rw [repairGo, repairGo]
        simp only [hm]
        simp only [List.length_cons] at hn h1 h2
        rw [ih cs g1 g2 (by omega) (by omega) (by omega)]
      | some t =>
        obtain ⟨t1, t2, t3⟩ := t
        have hlt := matchRange_shrinks (c :: cs) t1 t2 t3 hm
        rw [repairGo, repairGo]
        simp only [hm]
        simp only [List.length_cons] at hn h1 h2 hlt
        rw [ih t3 g1 g2 (by omega) (by omega) (by omega)]

lemma repairRanges_cons_miss (c : Char) (cs : List Char)
    (h : matchRange (c :: cs) = none) :
    repairRanges (c :: cs) = c :: repairRanges cs := by
  rw [repairRanges, repairRanges]
  simp only [List.length_cons]
  rw [repairGo, h]

lemma repairRanges_nonquote_span : ∀ (w rest : List Char), (∀ c ∈ w, ¬c = '"') →
    repairRanges (w ++ rest) = w ++ repairRanges rest := by
  intro w
  induction w with
  | nil => intro rest _; rfl
  | cons c cs ih =>
    intro rest hw
    rw [List.cons_append,
      repairRanges_cons_miss c _ (matchRange_miss c _ (hw c (List.mem_cons_self _ _))),
      ih rest (fun x hx => hw x (List.mem_cons_of_mem _ hx))]
    rfl

lemma repairRanges_hit (l g1 g2 rest : List Char)
    (h : matchRange l = some (g1, g2, rest)) :
    repairRanges l = g1 ++ '"' :: (g2 ++ '"' :: repairRanges rest) := by
  obtain ⟨c, cs, rfl⟩ : ∃ c cs, l = c :: cs := by
    cases l with
    | nil => rw [matchRange.eq_def] at h; exact Option.noConfusion h
    | cons c cs => exact ⟨c, cs, rfl⟩
  have hlt := matchRange_shrinks _ _ _ _ h
  rw [repairRanges, repairGo, h, repairRanges]
  simp only [List.length_cons] at hlt ⊢
  rw [repairGo_congr (cs.length + 1) rest (cs.length + 1) (rest.length + 1)
    (by omega) (by omega) (by omega)]

lemma matchRange_quote_nonword_head (r : List Char)
    (h : ∀ c ∈ r.head?, isWordChar c = false) :
    matchRange ('"' :: r) = none := by
  cases r with
  | nil => rw [matchRange.eq_def]; simp
  | cons c r' =>
    have hc : isWordChar c = false := h c rfl
    rw [matchRange.eq_def]
    simp [List.takeWhile_cons, hc]

lemma matchRange_key_strval_none (k tail : List Char)
    (hk : k ≠ []) (hkw : ∀ c ∈ k, isWordChar c = true) :
    matchRange ('"' :: (k ++ '"' :: ':' :: ' ' :: '"' :: tail)) = none := by
  have hK := scan_adjoin isWordChar k ('"' :: ':' :: ' ' :: '"' :: tail) hkw
    (fun x hx => by simp at hx; subst hx; decide)
  rw [matchRange.eq_def]
  simp [hK.1, hK.2, hk, List.takeWhile_cons, List.dropWhile_cons,
    show isPyWs ':' = false from rfl, show isPyWs ' ' = true from rfl,
    show isPyWs '"' = false from rfl, show Char.isDigit '"' = false from rfl]

lemma matchRange_key_numval_none (k ds rest : List Char)
    (hk : k ≠ []) (hkw : ∀ c ∈ k, isWordChar c = true)
    (hds : ds ≠ []) (hdd : ∀ c ∈ ds, c.isDigit = true)
    (hrest : ∀ c ∈ rest.head?, c.isDigit = false ∧ ¬c = '-') :
    matchRange ('"' :: (k ++ '"' :: ':' :: ' ' :: (ds ++ rest))) = none := by
  obtain ⟨d0, ds', rfl⟩ : ∃ x xs, ds = x :: xs := by
    cases ds with
    | nil => exact absurd rfl hds
    | cons x xs => exact ⟨x, xs, rfl⟩
  have hd0 : d0.isDigit = true := hdd d0 (List.mem_cons_self _ _)
  have hK := scan_adjoin isWordChar k ('"' :: ':' :: ' ' :: ((d0 :: ds') ++ rest)) hkw
    (fun x hx => by simp at hx; subst hx; decide)
  have hD := scan_adjoin Char.isDigit (d0 :: ds') rest hdd
    (fun x hx => (hrest x hx).1)
  simp only [List.cons_append] at hK hD
  rw [matchRange.eq_def]
  cases rest with
  | nil =>
    simp only [List.append_nil] at hK hD
    simp [hK.1, hK.2, hD.1, hD.2, hk, List.takeWhile_cons, List.dropWhile_cons,
      show isPyWs ':' = false from rfl, show isPyWs ' ' = true from rfl,
      pyWs_false_of_wordChar (wordChar_of_digit hd0), hd0]
  | cons c0 rest' =>
    have hc0 := hrest c0 rfl
    simp [hK.1, hK.2, hD.1, hD.2, hk, hc0.2, List.takeWhile_cons, List.dropWhile_cons,
      show isPyWs ':' = false from rfl, show isPyWs ' ' = true from rfl,
      pyWs_false_of_wordChar (wordChar_of_digit hd0), hd0]

lemma matchRange_strval_open_none (s r : List Char)
    (hsw : ∀ c ∈ s, isWordChar c = true)
    (hr : ∀ c ∈ r.head?, isPyWs c = false ∧ ¬c = ':') :
    matchRange ('"' :: (s ++ '"' :: r)) = none := by
  cases s with
  | nil =>
    exact matchRange_quote_nonword_head _ (fun c hc => by simp at hc; subst hc; decide)
  | cons s0 s' =>
    have hS := scan_adjoin isWordChar (s0 :: s') ('"' :: r) hsw
      (fun x hx => by simp at hx; subst hx; decide)
    simp only [List.cons_append] at hS
    rw [matchRange.eq_def]
    cases r with
    | nil => simp [hS.1, hS.2, List.takeWhile_cons, List.dropWhile_cons]
    | cons c0 r' =>
      have hc0 := hr c0 rfl
      simp [hS.1, hS.2, hc0.1, hc0.2, List.takeWhile_cons, List.dropWhile_cons]

lemma repairRanges_member (m : RMember) (rest : List Char)
    (hm : wfMember m = true)
    (hrest : ∀ c ∈ rest.head?, c.isDigit = false ∧ ¬c = '-' ∧ isPyWs c = false ∧
      ¬c = ':' ∧ isWordChar c = false) :
    repairRanges (renderMember m ++ rest) = renderMemberQ m ++ repairRanges rest := by
  cases m with
  | safe k v =>
    simp only [wfMember, Bool.and_eq_true, List.all_eq_true, Bool.not_eq_true',
      List.isEmpty_eq_false] at hm
    obtain ⟨⟨hkw, hk⟩, hv⟩ := hm
    cases v with
    | str s =>
      have hsw : ∀ c ∈ s, isWordChar c = true := by
        simpa [wfVal, List.all_eq_true] using hv
      have hform : renderMember (.safe k (.str s)) ++ rest
          = '"' :: (k ++ '"' :: ':' :: ' ' :: '"' :: (s ++ '"' :: rest)) := by
        simp [renderMember, renderVal]
      rw [hform,
        repairRanges_cons_miss _ _ (matchRange_key_strval_none k (s ++ '"' :: rest) hk hkw),
        repairRanges_nonquote_span k _ (fun c hc => ne_of_wordChar (hkw c hc) (by decide)),
        repairRanges_cons_miss _ _ (matchRange_quote_nonword_head _
          (fun c hc => by simp at hc; subst hc; decide)),
        repairRanges_cons_miss _ _ (matchRange_miss ':' _ (by decide)),
        repairRanges_cons_miss _ _ (matchRange_miss ' ' _ (by decide)),
        repairRanges_cons_miss _ _ (matchRange_strval_open_none s rest hsw
          (fun c hc => ⟨(hrest c hc).2.2.1, (hrest c hc).2.2.2.1⟩)),
        repairRanges_nonquote_span s _ (fun c hc => ne_of_wordChar (hsw c hc) (by decide)),
        repairRanges_cons_miss _ _ (matchRange_quote_nonword_head rest
          (fun c hc => (hrest c hc).2.2.2.2))]
      simp [renderMemberQ, renderVal]
    | num ds =>
      simp only [wfVal, Bool.and_eq_true, List.all_eq_true, Bool.not_eq_true',
        List.isEmpty_eq_false] at hv
      obtain ⟨⟨hdd, hds⟩, _⟩ := hv
      have hform : renderMember (.safe k (.num ds)) ++ rest
          = '"' :: (k ++ '"' :: ':' :: ' ' :: (ds ++ rest)) := by
        simp [renderMember, renderVal]
      rw [hform,
        repairRanges_cons_miss _ _ (matchRange_key_numval_none k ds rest hk hkw hds hdd
          (fun c hc => ⟨(hrest c hc).1, (hrest c hc).2.1⟩)),
        repairRanges_nonquote_span k _ (fun c hc => ne_of_wordChar (hkw c hc) (by decide)),
        repairRanges_cons_miss _ _ (matchRange_quote_nonword_head _
          (fun c hc => by simp at hc; subst hc; decide)),
        repairRanges_cons_miss _ _ (matchRange_miss ':' _ (by decide)),
        repairRanges_cons_miss _ _ (matchRange_miss ' ' _ (by decide)),
        repairRanges_nonquote_span ds _ (fun c hc => ne_of_digit (hdd c hc) (by decide))]
      simp [renderMemberQ, renderVal]
  | range k a b =>
    simp only [wfMember, Bool.and_eq_true, List.all_eq_true, Bool.not_eq_true',
      List.isEmpty_eq_false] at hm
    obtain ⟨⟨⟨⟨⟨hkw, hk⟩, had⟩, ha⟩, hbd⟩, hb⟩ := hm
    have hform : renderMember (.range k a b) ++ rest
        = '"' :: (k ++ '"' :: ':' :: ' ' :: (a ++ '-' :: (b ++ rest))) := by
      simp [renderMember]
    rw [hform,
      repairRanges_hit _ _ _ _ (matchRange_hit k a b rest hk hkw ha had hb hbd
        (fun c hc => (hrest c hc).1))]
    simp [renderMemberQ]

lemma repairRanges_join : ∀ (ms : List RMember) (rest : List Char),
    (∀ m ∈ ms, wfMember m = true) →
    (∀ c ∈ rest.head?, c.isDigit = false ∧ ¬c = '-' ∧ isPyWs c = false ∧
      ¬c = ':' ∧ isWordChar c = false) →
    repairRanges (joinMembers renderMember ms ++ rest)
      = joinMembers renderMemberQ ms ++ repairRanges rest := by
  intro ms
  induction ms with
  | nil => intro rest _ _; rfl
  | cons m ms' ih =>
    intro rest hwf hrest
    cases ms' with
    | nil =>
      show repairRanges (renderMember m ++ rest) = renderMemberQ m ++ repairRanges rest
      exact repairRanges_member m rest (hwf m (List.mem_cons_self _ _)) hrest
    | cons m2 ms'' =>
      have hj : joinMembers renderMember (m :: m2 :: ms'') ++ rest
          = renderMember m
            ++ (',' :: ' ' :: (joinMembers renderMember (m2 :: ms'') ++ rest)) := by
        simp [joinMembers]
      rw [hj,
        repairRanges_member m _ (hwf m (List.mem_cons_self _ _))
          (fun c hc => by simp at hc; subst hc; exact ⟨by decide, by decide, by decide,
            by decide, by decide⟩),
        repairRanges_cons_miss ',' _ (matchRange_miss ',' _ (by decide)),
        repairRanges_cons_miss ' ' _ (matchRange_miss ' ' _ (by decide)),
        ih rest (fun x hx => hwf x (List.mem_cons_of_mem _ hx)) hrest]
      simp [joinMembers]

lemma parseCore_val_str (g : ℕ) (s tail : List Char)
    (hss : ∀ c ∈ s, strSafe c) :
    parseCore (g + 1) .val ('"' :: (s ++ '"' :: tail)) = some (.str (String.mk s), tail) := by
  simp [parseCore, parseStr_plain s tail hss]

lemma parseCore_val_num (g : ℕ) (ds tail : List Char)
    (hdd : ∀ c ∈ ds, c.isDigit = true) (hds : ds ≠ [])
    (hcanon : ds = ['0'] ∨ ¬ds.head? = some '0')
    (htail : ∀ c ∈ tail.head?, c.isDigit = false ∧ (c == '.') = false ∧
      (c == 'e') = false ∧ (c == 'E') = false) :
    parseCore (g + 1) .val (ds ++ tail) = some (.num (digitsVal ds), tail) := by
  obtain ⟨d0, ds', rfl⟩ : ∃ x xs, ds = x :: xs := by
    cases ds with
    | nil => exact absurd rfl hds
    | cons x xs => exact ⟨x, xs, rfl⟩
  have hd0 : d0.isDigit = true := hdd d0 (List.mem_cons_self _ _)
  have hne : ∀ d : Char, d.isDigit = false → ¬d0 = d := fun d hd => ne_of_digit hd0 hd
  have hD := scan_adjoin Char.isDigit (d0 :: ds') tail hdd (fun x hx => (htail x hx).1)
  simp only [List.cons_append] at hD
  rcases hcanon with h0 | h0
  · obtain ⟨rfl, rfl⟩ : d0 = '0' ∧ ds' = [] := by
      have h1 := congrArg List.head? h0
      have h2 := congrArg List.tail h0
      simp at h1 h2
      exact ⟨h1, h2⟩
    cases htl : tail with
    | nil =>
      simp [parseCore, parseNum, parseNumCore]
      decide
    | cons c0 tl' =>
      have hc0 := htail c0 (by rw [htl]; rfl)
      simp [parseCore, parseNum, parseNumCore, hc0.1, hc0.2.1, hc0.2.2.1, hc0.2.2.2]
      decide
  · have hd0ne : ¬d0 = '0' := by
      intro hq
      exact h0 (by rw [hq]; rfl)
    cases htl : tail with
    | nil =>
      simp only [htl, List.append_nil] at hD ⊢
      simp [parseCore, parseNum, parseNumCore, hd0, hd0ne,
        hne '-' (by decide), hne '"' (by decide), hne '{' (by decide),
        hne '[' (by decide), hne 't' (by decide), hne 'f' (by decide),
        hne 'n' (by decide), hD.1, hD.2]
    | cons c0 tl' =>
      have hc0 := htail c0 (by rw [htl]; rfl)
      simp only [htl] at hD ⊢
      simp [parseCore, parseNum, parseNumCore, hd0, hd0ne,
        hne '-' (by decide), hne '"' (by decide), hne '{' (by decide),
        hne '[' (by decide), hne 't' (by decide), hne 'f' (by decide),
        hne 'n' (by decide), hD.1, hD.2, hc0.1, hc0.2.1, hc0.2.2.1, hc0.2.2.2]

lemma parseCore_objItem_unfold (g : ℕ) (d : List Char) :
    parseCore (g + 1) .objItem ('"' :: d) =
      (match parseStrChars d with
       | none => none
       | some (ks, u1) =>
         match skipWs u1 with
         | [] => none
         | d1 :: u2 =>
           if d1 = ':' then
             match parseCore g .val (skipWs u2) with
             | none => none
             | some (vj, u3) =>
               match skipWs u3 with
               | [] => none
               | d2 :: u4 =>
                 if d2 = ',' then
                   match parseCore g .objItem (skipWs u4) with
                   | some (.obj kvs, u5) => some (.obj ((String.mk ks, vj) :: kvs), u5)
                   | _ => none
                 else if d2 = '}' then some (.obj [(String.mk ks, vj)], u4)
                 else none
           else none) := by
  simp [parseCore]

lemma objItem_step_last (F : ℕ) (k vtext : List Char) (vj : Json)
    (hkw : ∀ c ∈ k, isWordChar c = true)
    (hskip : skipWs (vtext ++ ['}']) = vtext ++ ['}'])
    (hval : parseCore (F + 1) .val (vtext ++ ['}']) = some (vj, ['}'])) :
    parseCore (F + 2) .objItem ('"' :: (k ++ '"' :: ':' :: ' ' :: (vtext ++ ['}'])))
      = some (.obj [(String.mk k, vj)], []) := by
  have hKs := parseStr_plain k (':' :: ' ' :: (vtext ++ ['}']))
    (fun c hc => strSafe_of_wordChar (hkw c hc))
  have hskip' : List.dropWhile isJsonWs (vtext ++ ['}']) = vtext ++ ['}'] := hskip
  have hstep := parseCore_objItem_unfold (F + 1)
    (k ++ '"' :: ':' :: ' ' :: (vtext ++ ['}']))
  rw [show (F + 2) = (F + 1) + 1 from rfl, hstep, hKs]
  simp [skipWs, List.dropWhile_cons,
    show isJsonWs ':' = false from rfl, show isJsonWs ' ' = true from rfl,
    show isJsonWs '}' = false from rfl, hskip', hval]

lemma objItem_step_cons (F : ℕ) (k vtext : List Char) (vj : Json) (X : List Char)
    (hkw : ∀ c ∈ k, isWordChar c = true)
    (hXq : ∃ t, X = '"' :: t)
    (hskip : skipWs (vtext ++ ',' :: ' ' :: X) = vtext ++ ',' :: ' ' :: X)
    (hval : parseCore (F + 1) .val (vtext ++ ',' :: ' ' :: X) = some (vj, ',' :: ' ' :: X)) :
    parseCore (F + 2) .objItem ('"' :: (k ++ '"' :: ':' :: ' ' :: (vtext ++ ',' :: ' ' :: X)))
      = (match parseCore (F + 1) .objItem X with
         | some (.obj kvs, r5) => some (.obj ((String.mk k, vj) :: kvs), r5)
         | _ => none) := by
  obtain ⟨t, rfl⟩ := hXq
  have hKs := parseStr_plain k (':' :: ' ' :: (vtext ++ ',' :: ' ' :: '"' :: t))
    (fun c hc => strSafe_of_wordChar (hkw c hc))
  have hskip' : List.dropWhile isJsonWs (vtext ++ ',' :: ' ' :: '"' :: t)
      = vtext ++ ',' :: ' ' :: '"' :: t := hskip
  have hstep := parseCore_objItem_unfold (F + 1)
    (k ++ '"' :: ':' :: ' ' :: (vtext ++ ',' :: ' ' :: '"' :: t))
  rw [show (F + 2) = (F + 1) + 1 from rfl, hstep, hKs]
  simp [skipWs, List.dropWhile_cons,
    show isJsonWs ':' = false from rfl, show isJsonWs ' ' = true from rfl,
    show isJsonWs ',' = false from rfl, show isJsonWs '"' = false from rfl,
    hskip', hval]

lemma objItem_range_none (F : ℕ) (k a b tail : List Char)
    (hkw : ∀ c ∈ k, isWordChar c = true)
    (ha : a ≠ []) (had : ∀ c ∈ a, c.isDigit = true) :
    parseCore (F + 2) .objItem ('"' :: (k ++ '"' :: ':' :: ' ' :: (a ++ '-' :: (b ++ tail))))
      = none := by
  obtain ⟨a0, a', rfl⟩ : ∃ x xs, a = x :: xs := by
    cases a with
    | nil => exact absurd rfl ha
    | cons x xs => exact ⟨x, xs, rfl⟩
  have ha0 : a0.isDigit = true := had a0 (List.mem_cons_self _ _)
  have hKs := parseStr_plain k (':' :: ' ' :: a0 :: (a' ++ '-' :: (b ++ tail)))
    (fun c hc => strSafe_of_wordChar (hkw c hc))
  have hA' := scan_adjoin Char.isDigit a' ('-' :: (b ++ tail))
    (fun c hc => had c (List.mem_cons_of_mem _ hc))
    (fun x hx => by simp at hx; subst hx; decide)
  have hne : ∀ d : Char, d.isDigit = false → ¬a0 = d := fun d hd => ne_of_digit ha0 hd
  simp only [List.cons_append]
  by_cases h0 : a0 = '0'
  · subst h0
    cases a' with
    | nil =>
      simp only [List.nil_append, List.cons_append] at hKs hA'
      simp [parseCore, skipWs, List.dropWhile_cons, hKs, parseNum, parseNumCore,
        show isJsonWs '"' = false from rfl,
        show isJsonWs ':' = false from rfl, show isJsonWs ' ' = true from rfl,
        show isJsonWs '0' = false from rfl, show isJsonWs '-' = false from rfl,
        show Char.isDigit '-' = false from rfl,
        show (('-' : Char) == '.') = false from rfl,
        show (('-' : Char) == 'e') = false from rfl,
        show (('-' : Char) == 'E') = false from rfl]
    | cons a1 a'' =>
      have ha1 : a1.isDigit = true := had a1 (List.mem_cons_of_mem _ (List.mem_cons_self _ _))
      simp only [List.nil_append, List.cons_append] at hKs hA'
      simp [parseCore, skipWs, List.dropWhile_cons, hKs, parseNum, parseNumCore, ha1,
        show isJsonWs '"' = false from rfl,
        show isJsonWs ':' = false from rfl, show isJsonWs ' ' = true from rfl,
        show isJsonWs '0' = false from rfl]
  · have hj0 : isJsonWs a0 = false :=
      jsonWs_false_of_wordChar (wordChar_of_digit ha0)
    simp [parseCore, skipWs, List.dropWhile_cons, hKs, parseNum, parseNumCore,
      ha0, hj0, h0, hne '"' (by decide), hne '{' (by decide), hne '[' (by decide),
      hne 't' (by decide), hne 'f' (by decide), hne 'n' (by decide), hne '-' (by decide),
      List.takeWhile_cons, hA'.1, hA'.2,
      show isJsonWs '"' = false from rfl,
      show isJsonWs ':' = false from rfl, show isJsonWs ' ' = true from rfl,
      show isJsonWs '-' = false from rfl,
      show Char.isDigit '-' = false from rfl,
      show (('-' : Char) == '.') = false from rfl,
      show (('-' : Char) == 'e') = false from rfl,
      show (('-' : Char) == 'E') = false from rfl]

lemma ne_nil_of_isEmpty_false {α : Type} {l : List α} (h : l.isEmpty = false) : l ≠ [] := by
  cases l with
  | nil => simp at h
  | cons x xs => simp

lemma wfSafe_facts (k : List Char) (v : SafeVal) (h : wfMember (.safe k v) = true) :
    (∀ c ∈ k, isWordChar c = true) ∧ k ≠ [] ∧ wfVal v = true := by
  simp only [wfMember, Bool.and_eq_true, List.all_eq_true, Bool.not_eq_true'] at h
  exact ⟨h.1.1, ne_nil_of_isEmpty_false h.1.2, h.2⟩

lemma wfRange_facts (k a b : List Char) (h : wfMember (.range k a b) = true) :
    (∀ c ∈ k, isWordChar c = true) ∧ k ≠ [] ∧
    (∀ c ∈ a, c.isDigit = true) ∧ a ≠ [] ∧
    (∀ c ∈ b, c.isDigit = true) ∧ b ≠ [] := by
  simp only [wfMember, Bool.and_eq_true, List.all_eq_true, Bool.not_eq_true'] at h
  exact ⟨h.1.1.1.1.1, ne_nil_of_isEmpty_false h.1.1.1.1.2, h.1.1.1.2,
    ne_nil_of_isEmpty_false h.1.1.2, h.1.2, ne_nil_of_isEmpty_false h.2⟩

lemma wfStr_facts (s : List Char) (h : wfVal (.str s) = true) :
    ∀ c ∈ s, isWordChar c = true := by
  simp only [wfVal, List.all_eq_true] at h
  exact h

lemma wfNum_facts (ds : List Char) (h : wfVal (.num ds) = true) :
    (∀ c ∈ ds, c.isDigit = true) ∧ ds ≠ [] ∧ (ds = ['0'] ∨ ¬ds.head? = some '0') := by
  simp only [wfVal, Bool.and_eq_true, List.all_eq_true, Bool.not_eq_true',
    Bool.or_eq_true, beq_iff_eq] at h
  obtain ⟨⟨hd, he⟩, hc⟩ := h
  refine ⟨hd, ne_nil_of_isEmpty_false he, ?_⟩
  rcases hc with hc | hc
  · exact Or.inl hc
  · right
    intro hq
    rw [hq] at hc
    simp at hc

lemma strSafe_range (a b : List Char) (had : ∀ c ∈ a, c.isDigit = true)
    (hbd : ∀ c ∈ b, c.isDigit = true) : ∀ c ∈ a ++ '-' :: b, strSafe c := by
  intro c hc
  rcases List.mem_append.mp hc with hca | hcb
  · exact strSafe_of_wordChar (wordChar_of_digit (had c hca))
  · rcases List.mem_cons.mp hcb with rfl | hcb'
    · exact ⟨by decide, by decide, by decide⟩
    · exact strSafe_of_wordChar (wordChar_of_digit (hbd c hcb'))

lemma renderMember_head (m : RMember) : ∃ t, renderMember m = '"' :: t := by
  cases m with
  | safe k v => exact ⟨_, rfl⟩
  | range k a b => exact ⟨_, rfl⟩

lemma renderMemberQ_head (m : RMember) : ∃ t, renderMemberQ m = '"' :: t := by
  cases m with
  | safe k v => exact ⟨_, rfl⟩
  | range k a b => exact ⟨_, rfl⟩

lemma joinMembers_head (f : RMember → List Char) (hf : ∀ m, ∃ t, f m = '"' :: t)
    (m : RMember) (rest : List RMember) (X : List Char) :
    ∃ t, joinMembers f (m :: rest) ++ X = '"' :: t := by
  obtain ⟨t, ht⟩ := hf m
  cases rest with
  | nil => exact ⟨t ++ X, by simp [joinMembers, ht]⟩
  | cons m2 ms =>
    exact ⟨t ++ ',' :: ' ' :: (joinMembers f (m2 :: ms) ++ X), by simp [joinMembers, ht]⟩

lemma objItem_fuel1 (k d : List Char) (hkw : ∀ c ∈ k, isWordChar c = true) :
    parseCore 1 .objItem ('"' :: (k ++ '"' :: ':' :: ' ' :: d)) = none := by
  have hKs := parseStr_plain k (':' :: ' ' :: d)
    (fun c hc => strSafe_of_wordChar (hkw c hc))
  show parseCore (0 + 1) .objItem ('"' :: (k ++ '"' :: ':' :: ' ' :: d)) = none
  simp [parseCore, hKs, skipWs, List.dropWhile_cons,
    show isJsonWs ':' = false from rfl]

lemma objItem_last_str (F : ℕ) (k s : List Char)
    (hkw : ∀ c ∈ k, isWordChar c = true) (hss : ∀ c ∈ s, strSafe c) :
    parseCore (F + 2) .objItem ('"' :: (k ++ '"' :: ':' :: ' ' :: '"' :: (s ++ '"' :: ['}'])))
      = some (.obj [(String.mk k, .str (String.mk s))], []) := by
  have hv : parseCore (F + 1) .val (('"' :: (s ++ ['"'])) ++ ['}'])
      = some (.str (String.mk s), ['}']) := by
    simpa using parseCore_val_str F s ['}'] hss
  have hsk : skipWs (('"' :: (s ++ ['"'])) ++ ['}']) = ('"' :: (s ++ ['"'])) ++ ['}'] := by
    simp [skipWs, show isJsonWs '"' = false from rfl]
  have h := objItem_step_last F k ('"' :: (s ++ ['"'])) (.str (String.mk s)) hkw hsk hv
  simpa using h

lemma objItem_cons_str (F : ℕ) (k s X : List Char)
    (hkw : ∀ c ∈ k, isWordChar c = true) (hss : ∀ c ∈ s, strSafe c)
    (hXq : ∃ t, X = '"' :: t) :
    parseCore (F + 2) .objItem
        ('"' :: (k ++ '"' :: ':' :: ' ' :: '"' :: (s ++ '"' :: ',' :: ' ' :: X)))
      = (match parseCore (F + 1) .objItem X with
         | some (.obj kvs, r5) => some (.obj ((String.mk k, .str (String.mk s)) :: kvs), r5)
         | _ => none) := by
  have hv : parseCore (F + 1) .val (('"' :: (s ++ ['"'])) ++ ',' :: ' ' :: X)
      = some (.str (String.mk s), ',' :: ' ' :: X) := by
    simpa using parseCore_val_str F s (',' :: ' ' :: X) hss
  have hsk : skipWs (('"' :: (s ++ ['"'])) ++ ',' :: ' ' :: X)
      = ('"' :: (s ++ ['"'])) ++ ',' :: ' ' :: X := by
    simp [skipWs, show isJsonWs '"' = false from rfl]
  have h := objItem_step_cons F k ('"' :: (s ++ ['"'])) (.str (String.mk s)) X hkw hXq hsk hv
  simpa using h

lemma objItem_last_num (F : ℕ) (k ds : List Char)
    (hkw : ∀ c ∈ k, isWordChar c = true)
    (hdd : ∀ c ∈ ds, c.isDigit = true) (hds : ds ≠ [])
    (hcanon : ds = ['0'] ∨ ¬ds.head? = some '0') :
    parseCore (F + 2) .objItem ('"' :: (k ++ '"' :: ':' :: ' ' :: (ds ++ ['}'])))
      = some (.obj [(String.mk k, .num (digitsVal ds))], []) := by
  have hv := parseCore_val_num F ds ['}'] hdd hds hcanon
    (by intro c hc; simp at hc; subst hc; exact ⟨rfl, rfl, rfl, rfl⟩)
  have hsk : skipWs (ds ++ ['}']) = ds ++ ['}'] := by
    obtain ⟨d0, ds', rfl⟩ : ∃ x xs, ds = x :: xs := by
      cases ds with
      | nil => exact absurd rfl hds
      | cons x xs => exact ⟨x, xs, rfl⟩
    have hw := jsonWs_false_of_wordChar (wordChar_of_digit (hdd d0 (List.mem_cons_self _ _)))
    simp [skipWs, hw]
  exact objItem_step_last F k ds (.num (digitsVal ds)) hkw hsk hv

lemma objItem_cons_num (F : ℕ) (k ds X : List Char)
    (hkw : ∀ c ∈ k, isWordChar c = true)
    (hdd : ∀ c ∈ ds, c.isDigit = true) (hds : ds ≠ [])
    (hcanon : ds = ['0'] ∨ ¬ds.head? = some '0')
    (hXq : ∃ t, X = '"' :: t) :
    parseCore (F + 2) .objItem ('"' :: (k ++ '"' :: ':' :: ' ' :: (ds ++ ',' :: ' ' :: X)))
      = (match parseCore (F + 1) .objItem X with
         | some (.obj kvs, r5) =>
             some (.obj ((String.mk k, .num (digitsVal ds)) :: kvs), r5)
         | _ => none) := by
  have hv := parseCore_val_num F ds (',' :: ' ' :: X) hdd hds hcanon
    (by intro c hc; simp at hc; subst hc; exact ⟨rfl, rfl, rfl, rfl⟩)
  have hsk : skipWs (ds ++ ',' :: ' ' :: X) = ds ++ ',' :: ' ' :: X := by
    obtain ⟨d0, ds', rfl⟩ : ∃ x xs, ds = x :: xs := by
      cases ds with
      | nil => exact absurd rfl hds
      | cons x xs => exact ⟨x, xs, rfl⟩
    have hw := jsonWs_false_of_wordChar (wordChar_of_digit (hdd d0 (List.mem_cons_self _ _)))
    simp [skipWs, hw]
  exact objItem_step_cons F k ds (.num (digitsVal ds)) X hkw hXq hsk hv

lemma objItem_range_anyFuel (g : ℕ) (k a b tail : List Char)
    (hkw : ∀ c ∈ k, isWordChar c = true)
    (ha : a ≠ []) (had : ∀ c ∈ a, c.isDigit = true) :
    parseCore g .objItem ('"' :: (k ++ '"' :: ':' :: ' ' :: (a ++ '-' :: (b ++ tail))))
      = none := by
  cases g with
  | zero => simp [parseCore]
  | succ g1 =>
    cases g1 with
    | zero => exact objItem_fuel1 k (a ++ '-' :: (b ++ tail)) hkw
    | succ g2 =>
      rw [show g2 + 1 + 1 = g2 + 2 from rfl]
      exact objItem_range_none g2 k a b tail hkw ha had

lemma parse_join_fail (ms : List RMember) : ∀ (g : ℕ),
    (∀ m ∈ ms, wfMember m = true) →
    (∃ m ∈ ms, isRange m = true) →
    parseCore g .objItem (joinMembers renderMember ms ++ ['}']) = none := by
  induction ms with
  | nil =>
    intro g _ hr
    simp at hr
  | cons m rest ih =>
    intro g hwf hr
    cases m with
    | range k a b =>
      obtain ⟨hkw, hke, haD, hae, hbD, hbe⟩ :=
        wfRange_facts k a b (hwf _ (List.mem_cons_self _ _))
      cases rest with
      | nil =>
        simpa [joinMembers, renderMember] using
          objItem_range_anyFuel g k a b ['}'] hkw hae haD
      | cons m2 ms'' =>
        simpa [joinMembers, renderMember] using
          objItem_range_anyFuel g k a b
            (',' :: ' ' :: (joinMembers renderMember (m2 :: ms'') ++ ['}'])) hkw hae haD
    | safe k v =>
      obtain ⟨hkw, hke, hv⟩ := wfSafe_facts k v (hwf _ (List.mem_cons_self _ _))
      obtain ⟨mr, hmr, hmrR⟩ := hr
      rcases List.mem_cons.mp hmr with rfl | hmr'
      · simp [isRange] at hmrR
      · cases rest with
        | nil => simp at hmr'
        | cons m2 ms'' =>
          have hwf' : ∀ x ∈ m2 :: ms'', wfMember x = true :=
            fun x hx => hwf x (List.mem_cons_of_mem _ hx)
          have hr' : ∃ x ∈ m2 :: ms'', isRange x = true := ⟨mr, hmr', hmrR⟩
          have hXq : ∃ t, joinMembers renderMember (m2 :: ms'') ++ ['}'] = '"' :: t :=
            joinMembers_head renderMember renderMember_head m2 ms'' ['}']
          cases v with
          | str s =>
            have hss := fun c hc => strSafe_of_wordChar (wfStr_facts s hv c hc)
            cases g with
            | zero => simp [parseCore]
            | succ g1 =>
              cases g1 with
              | zero =>
                simpa [joinMembers, renderMember, renderVal] using
                  objItem_fuel1 k
                    ('"' :: (s ++ '"' :: ',' :: ' ' ::
                      (joinMembers renderMember (m2 :: ms'') ++ ['}']))) hkw
              | succ g2 =>
                have h := objItem_cons_str g2 k s
                  (joinMembers renderMember (m2 :: ms'') ++ ['}']) hkw hss hXq
                have hrec := ih (g2 + 1) hwf' hr'
                rw [hrec] at h
                rw [show g2 + 1 + 1 = g2 + 2 from rfl]
                simpa [joinMembers, renderMember, renderVal] using h
          | num ds =>
            obtain ⟨hdd, hds, hcanon⟩ := wfNum_facts ds hv
            cases g with
            | zero => simp [parseCore]
            | succ g1 =>
              cases g1 with
              | zero =>
                simpa [joinMembers, renderMember, renderVal] using
                  objItem_fuel1 k
                    (ds ++ ',' :: ' ' ::
                      (joinMembers renderMember (m2 :: ms'') ++ ['}'])) hkw
              | succ g2 =>
                have h := objItem_cons_num g2 k ds
                  (joinMembers renderMember (m2 :: ms'') ++ ['}']) hkw hdd hds hcanon hXq
                have hrec := ih (g2 + 1) hwf' hr'
                rw [hrec] at h
                rw [show g2 + 1 + 1 = g2 + 2 from rfl]
                simpa [joinMembers, renderMember, renderVal] using h

lemma parse_joinQ_ok (ms : List RMember) : ∀ (F : ℕ),
    (∀ m ∈ ms, wfMember m = true) → ms ≠ [] → ms.length ≤ F + 1 →
    parseCore (F + 2) .objItem (joinMembers renderMemberQ ms ++ ['}'])
      = some (.obj (ms.map memberKV), []) := by
  induction ms with
  | nil =>
    intro F _ hne _
    exact absurd rfl hne
  | cons m rest ih =>
    intro F hwf _ hlen
    cases rest with
    | nil =>
      cases m with
      | safe k v =>
        obtain ⟨hkw, hke, hv⟩ := wfSafe_facts k v (hwf _ (List.mem_cons_self _ _))
        cases v with
        | str s =>
          have hss := fun c hc => strSafe_of_wordChar (wfStr_facts s hv c hc)
          simpa [joinMembers, renderMemberQ, renderVal, memberKV] using
            objItem_last_str F k s hkw hss
        | num ds =>
          obtain ⟨hdd, hds, hcanon⟩ := wfNum_facts ds hv
          simpa [joinMembers, renderMemberQ, renderVal, memberKV] using
            objItem_last_num F k ds hkw hdd hds hcanon
      | range k a b =>
        obtain ⟨hkw, hke, haD, hae, hbD, hbe⟩ :=
          wfRange_facts k a b (hwf _ (List.mem_cons_self _ _))
        have hss := strSafe_range a b haD hbD
        simpa [joinMembers, renderMemberQ, memberKV] using
          objItem_last_str F k (a ++ '-' :: b) hkw hss
    | cons m2 ms'' =>
      obtain ⟨F', rfl⟩ : ∃ F', F = F' + 1 := by
        refine ⟨F - 1, ?_⟩
        simp only [List.length_cons] at hlen
        omega
      have hwf' : ∀ x ∈ m2 :: ms'', wfMember x = true :=
        fun x hx => hwf x (List.mem_cons_of_mem _ hx)
      have hlen' : (m2 :: ms'').length ≤ F' + 1 := by
        simp only [List.length_cons] at hlen ⊢
        omega
      have hrec := ih F' hwf' (by simp) hlen'
      have hXq : ∃ t, joinMembers renderMemberQ (m2 :: ms'') ++ ['}'] = '"' :: t :=
        joinMembers_head renderMemberQ renderMemberQ_head m2 ms'' ['}']
      cases m with
      | safe k v =>
        obtain ⟨hkw, hke, hv⟩ := wfSafe_facts k v (hwf _ (List.mem_cons_self _ _))
        cases v with
        | str s =>
          have hss := fun c hc => strSafe_of_wordChar (wfStr_facts s hv c hc)
          have h := objItem_cons_str (F' + 1) k s
            (joinMembers renderMemberQ (m2 :: ms'') ++ ['}']) hkw hss hXq
          rw [show F' + 1 + 1 = F' + 2 from rfl, hrec] at h
          simpa [joinMembers, renderMemberQ, renderVal, memberKV] using h
        | num ds =>
          obtain ⟨hdd, hds, hcanon⟩ := wfNum_facts ds hv
          have h := objItem_cons_num (F' + 1) k ds
            (joinMembers renderMemberQ (m2 :: ms'') ++ ['}']) hkw hdd hds hcanon hXq
          rw [show F' + 1 + 1 = F' + 2 from rfl, hrec] at h
          simpa [joinMembers, renderMemberQ, renderVal, memberKV] using h
      | range k a b =>
        obtain ⟨hkw, hke, haD, hae, hbD, hbe⟩ :=
          wfRange_facts k a b (hwf _ (List.mem_cons_self _ _))
        have hss := strSafe_range a b haD hbD
        have h := objItem_cons_str (F' + 1) k (a ++ '-' :: b)
          (joinMembers renderMemberQ (m2 :: ms'') ++ ['}']) hkw hss hXq
        rw [show F' + 1 + 1 = F' + 2 from rfl, hrec] at h
        simpa [joinMembers, renderMemberQ, memberKV] using h

lemma parseCore_val_brace (g : ℕ) (rest : List Char) :
    parseCore (g + 1) .val ('{' :: rest) = parseCore g .objBody (skipWs rest) := by
  simp [parseCore]

lemma parseCore_objBody_quote (g : ℕ) (t : List Char) :
    parseCore (g + 1) .objBody ('"' :: t) = parseCore g .objItem ('"' :: t) := by
  simp [parseCore]

lemma renderMember_no_brace (m : RMember) (h : wfMember m = true) :
    ∀ c ∈ renderMember m, ¬c = '{' ∧ ¬c = '}' := by
  cases m with
  | safe k v =>
    obtain ⟨hkw, hke, hv⟩ := wfSafe_facts k v h
    cases v with
    | str s =>
      have hsw := wfStr_facts s hv
      intro c hc
      simp only [renderMember, renderVal, List.mem_cons, List.mem_append,
        List.mem_singleton, List.not_mem_nil, or_false] at hc
      rcases hc with rfl | hck | rfl | rfl | rfl | rfl | hcs | rfl
      · exact ⟨by decide, by decide⟩
      · exact ⟨ne_of_wordChar (hkw c hck) (by decide), ne_of_wordChar (hkw c hck) (by decide)⟩
      · exact ⟨by decide, by decide⟩
      · exact ⟨by decide, by decide⟩
      · exact ⟨by decide, by decide⟩
      · exact ⟨by decide, by decide⟩
      · exact ⟨ne_of_wordChar (hsw c hcs) (by decide), ne_of_wordChar (hsw c hcs) (by decide)⟩
      · exact ⟨by decide, by decide⟩
    | num ds =>
      obtain ⟨hdd, hds, hcanon⟩ := wfNum_facts ds hv
      intro c hc
      simp only [renderMember, renderVal, List.mem_cons, List.mem_append] at hc
      rcases hc with rfl | hck | rfl | rfl | rfl | hcd
      · exact ⟨by decide, by decide⟩
      · exact ⟨ne_of_wordChar (hkw c hck) (by decide), ne_of_wordChar (hkw c hck) (by decide)⟩
      · exact ⟨by decide, by decide⟩
      · exact ⟨by decide, by decide⟩
      · exact ⟨by decide, by decide⟩
      · exact ⟨ne_of_digit (hdd c hcd) (by decide), ne_of_digit (hdd c hcd) (by decide)⟩
  | range k a b =>
    obtain ⟨hkw, hke, haD, hae, hbD, hbe⟩ := wfRange_facts k a b h
    intro c hc
    simp only [renderMember, List.mem_cons, List.mem_append] at hc
    rcases hc with rfl | hck | rfl | rfl | rfl | hca | rfl | hcb
    · exact ⟨by decide, by decide⟩
    · exact ⟨ne_of_wordChar (hkw c hck) (by decide), ne_of_wordChar (hkw c hck) (by decide)⟩
    · exact ⟨by decide, by decide⟩
    · exact ⟨by decide, by decide⟩
    · exact ⟨by decide, by decide⟩
    · exact ⟨ne_of_digit (haD c hca) (by decide), ne_of_digit (haD c hca) (by decide)⟩
    · exact ⟨by decide, by decide⟩
    · exact ⟨ne_of_digit (hbD c hcb) (by decide), ne_of_digit (hbD c hcb) (by decide)⟩

lemma joinMembers_no_brace : ∀ (ms : List RMember),
    (∀ m ∈ ms, wfMember m = true) →
    ∀ c ∈ joinMembers renderMember ms, ¬c = '{' ∧ ¬c = '}' := by
  intro ms
  induction ms with
  | nil =>
    intro _ c hc
    simp [joinMembers] at hc
  | cons m rest ih =>
    intro hwf c hc
    cases rest with
    | nil =>
      exact renderMember_no_brace m (hwf m (List.mem_cons_self _ _)) c
        (by simpa [joinMembers] using hc)
    | cons m2 ms'' =>
      simp only [joinMembers, List.mem_append, List.mem_cons] at hc
      rcases hc with hc | rfl | rfl | hc
      · exact renderMember_no_brace m (hwf m (List.mem_cons_self _ _)) c hc
      · exact ⟨by decide, by decide⟩
      · exact ⟨by decide, by decide⟩
      · exact ih (fun x hx => hwf x (List.mem_cons_of_mem _ hx)) c hc

lemma joinMembers_length_ge (f : RMember → List Char) (hf : ∀ m, 1 ≤ (f m).length) :
    ∀ ms : List RMember, ms.length ≤ (joinMembers f ms).length := by
  intro ms
  induction ms with
  | nil => simp [joinMembers]
  | cons m rest ih =>
    cases rest with
    | nil => simpa [joinMembers] using hf m
    | cons m2 ms'' =>
      simp only [joinMembers, List.length_cons, List.length_append] at ih ⊢
      omega

lemma json_loads_join_fail (ms : List RMember)
    (hwf : ∀ m ∈ ms, wfMember m = true)
    (hr : ∃ m ∈ ms, isRange m = true) :
    json_loads_chars ('{' :: (joinMembers renderMember ms ++ ['}'])) = none := by
  cases ms with
  | nil => simp at hr
  | cons m0 rest =>
    obtain ⟨t, ht⟩ := joinMembers_head renderMember renderMember_head m0 rest ['}']
    rw [ht]
    have hfail : parseCore (2 * ('{' :: '"' :: t).length) .objItem ('"' :: t) = none := by
      rw [← ht]
      exact parse_join_fail (m0 :: rest) _ hwf hr
    rw [json_loads_chars]
    rw [show skipWs ('{' :: '"' :: t) = '{' :: '"' :: t from by
      simp [skipWs, show isJsonWs '{' = false from rfl]]
    rw [show 2 * ('{' :: '"' :: t).length + 2
        = (2 * ('{' :: '"' :: t).length + 1) + 1 from rfl]
    rw [parseCore_val_brace]
    rw [show skipWs ('"' :: t) = '"' :: t from by
      simp [skipWs, show isJsonWs '"' = false from rfl]]
    rw [parseCore_objBody_quote, hfail]

lemma json_loads_joinQ_ok (ms : List RMember)
    (hwf : ∀ m ∈ ms, wfMember m = true) (hne : ms ≠ []) :
    json_loads_chars ('{' :: (joinMembers renderMemberQ ms ++ ['}']))
      = some (.obj (ms.map memberKV)) := by
  cases ms with
  | nil => exact absurd rfl hne
  | cons m0 rest =>
    obtain ⟨t, ht⟩ := joinMembers_head renderMemberQ renderMemberQ_head m0 rest ['}']
    have hlenJ : (m0 :: rest).length ≤ (joinMembers renderMemberQ (m0 :: rest)).length :=
      joinMembers_length_ge renderMemberQ
        (fun m => by
          obtain ⟨u, hu⟩ := renderMemberQ_head m
          rw [hu]
          simp) (m0 :: rest)
    have hok : parseCore (2 * ('{' :: '"' :: t).length) .objItem ('"' :: t)
        = some (.obj ((m0 :: rest).map memberKV), []) := by
      have hlt : (joinMembers renderMemberQ (m0 :: rest)).length ≤ t.length := by
        have hlc := congrArg List.length ht
        simp only [List.length_append, List.length_cons, List.length_nil] at hlc
        omega
      obtain ⟨F, hF1, hF2⟩ : ∃ F, 2 * ('{' :: '"' :: t).length = F + 2
          ∧ (m0 :: rest).length ≤ F + 1 := by
        refine ⟨2 * ('{' :: '"' :: t).length - 2, ?_, ?_⟩
        · simp only [List.length_cons]
          omega
        · simp only [List.length_cons] at hlenJ ⊢
          omega
      rw [hF1, ← ht]
      exact parse_joinQ_ok (m0 :: rest) F hwf (by simp) hF2
    rw [ht, json_loads_chars]
    rw [show skipWs ('{' :: '"' :: t) = '{' :: '"' :: t from by
      simp [skipWs, show isJsonWs '{' = false from rfl]]
    rw [show 2 * ('{' :: '"' :: t).length + 2
        = (2 * ('{' :: '"' :: t).length + 1) + 1 from rfl]
    rw [parseCore_val_brace]
    rw [show skipWs ('"' :: t) = '"' :: t from by
      simp [skipWs, show isJsonWs '"' = false from rfl]]
    rw [parseCore_objBody_quote, hok]
    rfl

lemma repair_renderObject (ms : List RMember) (hwf : ∀ m ∈ ms, wfMember m = true) :
    repairRanges ('{' :: (joinMembers renderMember ms ++ ['}']))
      = '{' :: (joinMembers renderMemberQ ms ++ ['}']) := by
  rw [repairRanges_cons_miss '{' _ (matchRange_miss '{' _ (by decide))]
  rw [repairRanges_join ms ['}'] hwf
    (fun c hc => by
      simp at hc
      subst hc
      exact ⟨by decide, by decide, by decide, by decide, by decide⟩)]
  rw [repairRanges_cons_miss '}' _ (matchRange_miss '}' _ (by decide))]
  rfl

/-- Refutation of C8 at full scope: the repair regex requires a `\w+` key, so
for the otherwise valid object `{"a b": 28-35}` (whose key contains a space)
the repair pass leaves the text unchanged and extraction fails with a decode
error, even though the quoted variant `{"a b": "28-35"}` parses fine. -/
theorem C8_nonword_key_not_repaired :
    _extract_json "\x7b\"a b\": 28-35\x7d" = .error .parseFail ∧
    extractErrMsg .parseFail = "JSONDecodeError" ∧
    repairRanges "\x7b\"a b\": 28-35\x7d".data = "\x7b\"a b\": 28-35\x7d".data ∧
    json_loads_chars "\x7b\"a b\": \"28-35\"\x7d".data
      = some (.obj [("a b", .str "28-35")]) :=
  ⟨rfl, rfl, rfl, rfl⟩

/-- C8 (amended): on objects whose keys are `\w+` words, rendered with the
canonical `": "` / `", "` separators, whose other values are word strings or
integers, and at least one of whose values is a bare numeric-range token, the
first parse fails, the repair pass quotes every range token, and extraction
succeeds with each range value as the string `"a-b"`. -/
theorem C8_range_repair_general (ms : List RMember)
    (hwf : ∀ m ∈ ms, wfMember m = true)
    (hr : ∃ m ∈ ms, isRange m = true) :
    _extract_json (String.mk (renderObject ms)) = .ok (.obj (ms.map memberKV)) := by
  have hne : ms ≠ [] := by
    obtain ⟨m, hm, _⟩ := hr
    intro h
    rw [h] at hm
    simp at hm
  have hform : renderObject ms = '{' :: (joinMembers renderMember ms ++ ['}']) := rfl
  have hnb := joinMembers_no_brace ms hwf
  have htrim : trimWs (renderObject ms) = renderObject ms := by
    rw [hform]
    exact trimWs_brace_wrapped _
  have hstrip : stripFences (renderObject ms) = renderObject ms := by
    rw [hform]
    exact stripFences_brace_wrapped _
  have hfind : findBrace (renderObject ms) = some (renderObject ms) := by
    rw [hform]
    exact findBrace_cons_open _
  have hbal : takeBalanced [] 0 (renderObject ms) = some (renderObject ms) := by
    rw [hform]
    exact takeBalanced_wrapped _ hnb
  have hfail : json_loads_chars (renderObject ms) = none := by
    rw [hform]
    exact json_loads_join_fail ms hwf hr
  have hrep : repairRanges (renderObject ms)
      = '{' :: (joinMembers renderMemberQ ms ++ ['}']) := by
    rw [hform]
    exact repair_renderObject ms hwf
  have hok : json_loads_chars ('{' :: (joinMembers renderMemberQ ms ++ ['}']))
      = some (.obj (ms.map memberKV)) := json_loads_joinQ_ok ms hwf hne
  show extractJsonChars (renderObject ms) = _
  simp only [extractJsonChars, htrim, hstrip, hfind, hbal, hfail, hrep, hok]

/-- Witness for C8: `{"n": 5, "age": 28-35, "city": "Pune"}` extracts to
`{"n": 5, "age": "28-35", "city": "Pune"}`. -/
theorem C8_range_repair_general_witness :
    _extract_json (String.mk (renderObject
        [.safe "n".data (.num "5".data),
         .range "age".data "28".data "35".data,
         .safe "city".data (.str "Pune".data)]))
      = .ok (.obj [("n", .num 5), ("age", .str "28-35"), ("city", .str "Pune")]) :=
  C8_range_repair_general
    [.safe "n".data (.num "5".data),
     .range "age".data "28".data "35".data,
     .safe "city".data (.str "Pune".data)]
    (by decide) (by decide)

end Persona
